import Mathlib

/-!
Verification of the graph-visualizer core: the graph parser
(`src/graphParser.js`), the shortest-path and MST engines
(`src/algorithms.js`), and the calculator token normalizer
(`src/calculators.js`).

The JavaScript code is shallowly embedded: JS numbers are modelled as
exact rationals extended with NaN and the two infinities (IEEE-754
rounding is not modelled; it is irrelevant at the magnitudes these
claims exercise), JS objects used as string-keyed maps are modelled as
association lists, and JS `undefined`/`null` are modelled with `Option`
layers.  Potentially diverging `while` loops (Dijkstra's relaxation
loop can run forever on negative-weight inputs) take an explicit fuel
parameter; `none` means the fuel ran out.
-/

set_option allowUnsafeReducibility true
attribute [semireducible] Rat.add Rat.sub Rat.neg Rat.mul Rat.div Rat.blt Rat.normalize Rat.inv

set_option maxRecDepth 1000000

namespace GraphViz

/-- A JavaScript number: a finite value (modelled as an exact rational),
`NaN`, `+Infinity` or `-Infinity`. -/
inductive JsNum where
  | fin (q : ℚ)
  | nan
  | pinf
  | ninf
deriving DecidableEq, Repr

namespace JsNum

/-- JS addition on numbers. -/
def add : JsNum → JsNum → JsNum
  | fin a, fin b => fin (a + b)
  | nan, _ => nan
  | _, nan => nan
  | pinf, ninf => nan
  | ninf, pinf => nan
  | pinf, _ => pinf
  | _, pinf => pinf
  | ninf, _ => ninf
  | _, ninf => ninf

/-- JS subtraction on numbers. -/
def sub : JsNum → JsNum → JsNum
  | fin a, fin b => fin (a - b)
  | nan, _ => nan
  | _, nan => nan
  | pinf, pinf => nan
  | ninf, ninf => nan
  | pinf, _ => pinf
  | _, pinf => ninf
  | ninf, _ => ninf
  | _, ninf => pinf

/-- JS `<` on numbers: any comparison involving `NaN` is false. -/
def lt : JsNum → JsNum → Bool
  | fin a, fin b => a < b
  | nan, _ => false
  | _, nan => false
  | pinf, _ => false
  | _, pinf => true
  | ninf, fin _ => true
  | ninf, ninf => false
  | fin _, ninf => false

/-- JS `<=` on numbers: any comparison involving `NaN` is false. -/
def le : JsNum → JsNum → Bool
  | fin a, fin b => a ≤ b
  | nan, _ => false
  | _, nan => false
  | _, pinf => true
  | pinf, _ => false
  | ninf, _ => true
  | fin _, ninf => false

/-- JS unary negation. -/
def neg : JsNum → JsNum
  | fin a => fin (-a)
  | nan => nan
  | pinf => ninf
  | ninf => pinf

/-- `Number.isFinite`. -/
def isFinite : JsNum → Bool
  | fin _ => true
  | _ => false

/-- `Math.trunc` restricted to finite values (all call sites guard with
`Number.isFinite` first). -/
def trunc (q : ℚ) : ℤ := if q < 0 then ⌈q⌉ else ⌊q⌋

end JsNum

/-- The characters removed by `String.prototype.trim` / accepted by the
`StrWhiteSpace` production of `Number(...)` (the exotic Unicode
whitespace code points are not modelled). -/
def jsWhitespace (c : Char) : Bool :=
  c = ' ' ∨ c = '\t' ∨ c = '\n' ∨ c = '\x0d' ∨ c = '\x0b' ∨ c = '\x0c'

/-- `String.prototype.trim`. -/
def jsTrim (s : String) : String :=
  ⟨(s.data.dropWhile jsWhitespace).reverse.dropWhile jsWhitespace |>.reverse⟩

/-- Numeric value of a digit character in bases up to 36 (only bases
2 and 16 are exercised); call sites validate the digit first. -/
def digitVal (c : Char) : ℕ :=
  if '0' ≤ c ∧ c ≤ '9' then c.toNat - '0'.toNat
  else if 'a' ≤ c ∧ c ≤ 'z' then c.toNat - 'a'.toNat + 10
  else if 'A' ≤ c ∧ c ≤ 'Z' then c.toNat - 'A'.toNat + 10
  else 0

/-- Is `c` a valid digit in base `radix`? -/
def isRadixDigit (radix : ℕ) (c : Char) : Bool :=
  digitVal c < radix ∧ (c.isDigit ∨ c.isLower ∨ c.isUpper)

/-- Fold a digit list into a natural number in the given base. -/
def digitsVal (radix : ℕ) (l : List Char) : ℕ :=
  l.foldl (fun a c => radix * a + digitVal c) 0

/-- The ECMAScript `parseInt(string, radix)` builtin for radix 2..36:
trim, optional sign, an optional `0x`/`0X` prefix when the radix is 16,
then the longest prefix of valid digits; no digits at all gives `NaN`.
(Notably, `parseInt("0b101", 2)` parses only the leading `0` and
returns `0`, because `b` is not a base-2 digit.) -/
def jsParseInt (s : String) (radix : ℕ) : JsNum :=
  let l := (jsTrim s).data
  let (sign, l) : ℤ × List Char :=
    match l with
    | '-' :: rest => (-1, rest)
    | '+' :: rest => (1, rest)
    | _ => (1, l)
  let l :=
    match radix, l with
    | 16, '0' :: 'x' :: rest => rest
    | 16, '0' :: 'X' :: rest => rest
    | _, _ => l
  let digits := l.takeWhile (isRadixDigit radix)
  if digits = [] then .nan
  else .fin ((sign * digitsVal radix digits : ℤ) : ℚ)

/-- Parse the optional exponent tail of a `StrDecimalLiteral`
(`e`/`E`, optional sign, one or more digits); must consume the whole
remaining input. -/
def parseExpTail : List Char → Option ℤ
  | [] => some 0
  | c :: rest =>
    if c = 'e' ∨ c = 'E' then
      match rest with
      | '+' :: ds => if ds ≠ [] ∧ ds.all Char.isDigit then some (digitsVal 10 ds) else none
      | '-' :: ds => if ds ≠ [] ∧ ds.all Char.isDigit then some (-(digitsVal 10 ds : ℤ)) else none
      | ds => if ds ≠ [] ∧ ds.all Char.isDigit then some (digitsVal 10 ds) else none
    else none

/-- Parse an unsigned `StrUnsignedDecimalLiteral` body other than
`Infinity`: `digits [. digits] [exp]` or `. digits [exp]`. -/
def parseDecBody (l : List Char) : Option ℚ :=
  let intPart := l.takeWhile Char.isDigit
  let rest := l.dropWhile Char.isDigit
  match rest with
  | '.' :: rest2 =>
    let fracPart := rest2.takeWhile Char.isDigit
    let rest3 := rest2.dropWhile Char.isDigit
    if intPart = [] ∧ fracPart = [] then none
    else
      (parseExpTail rest3).map fun e =>
        ((digitsVal 10 intPart : ℚ) + (digitsVal 10 fracPart : ℚ) / 10 ^ fracPart.length)
          * (10 : ℚ) ^ e
  | _ =>
    if intPart = [] then none
    else (parseExpTail rest).map fun e => (digitsVal 10 intPart : ℚ) * (10 : ℚ) ^ e

/-- Unsigned decimal part of a string numeric literal: `Infinity` or a
decimal body. -/
def jsStrUnsignedDec (l : List Char) : JsNum :=
  if l = "Infinity".data then .pinf
  else
    match parseDecBody l with
    | some q => .fin q
    | none => .nan

/-- A `StrNumericLiteral` with no leading sign: a `0x`/`0b`/`0o`
radix literal or an unsigned decimal literal. -/
def jsStrUnsigned (l : List Char) : JsNum :=
  match l with
  | '0' :: c :: rest =>
    if c = 'x' ∨ c = 'X' then
      if rest ≠ [] ∧ rest.all (isRadixDigit 16) then .fin (digitsVal 16 rest) else .nan
    else if c = 'b' ∨ c = 'B' then
      if rest ≠ [] ∧ rest.all (isRadixDigit 2) then .fin (digitsVal 2 rest) else .nan
    else if c = 'o' ∨ c = 'O' then
      if rest ≠ [] ∧ rest.all (isRadixDigit 8) then .fin (digitsVal 8 rest) else .nan
    else jsStrUnsignedDec l
  | _ => jsStrUnsignedDec l

/-- The ECMAScript `Number(string)` builtin: trim; the empty string is
`0`; an optional sign (allowed only for decimal literals, including
`Infinity`); radix-prefixed literals are unsigned. -/
def jsNumber (s : String) : JsNum :=
  match (jsTrim s).data with
  | [] => .fin 0
  | '+' :: rest => jsStrUnsignedDec rest
  | '-' :: rest => (jsStrUnsignedDec rest).neg
  | l => jsStrUnsigned l

/-- A JSON value as produced by `JSON.parse`.  Numbers are modelled as
exact rationals (double rounding/overflow of extreme literals is not
modelled); object fields are kept in insertion order with duplicate
keys collapsed last-write-wins, as `JSON.parse` does. -/
inductive Json where
  | num (q : ℚ)
  | str (s : String)
  | bool (b : Bool)
  | null
  | arr (elems : List Json)
  | obj (fields : List (String × Json))
deriving Repr

/-- `src/graphParser.js` `toNumberIfPossible`: numbers pass through;
non-strings give `null`; a trimmed string is matched against
`/^0x[0-9a-f]+$/i` (then `parseInt(s, 16)`), `/^0b[01]+$/i` (then
`parseInt(s, 2)` — which stops at the `b` and yields `0`), else
`Number(s)`, kept only when finite.  `none` models the JS `null`. -/
def toNumberIfPossible (val : Json) : Option JsNum :=
  match val with
  | .num q => some (.fin q)
  | .str v =>
    let s := jsTrim v
    if s = "" then none
    else if regexHex s.data then some (jsParseInt s 16)
    else if regexBin s.data then some (jsParseInt s 2)
    else
      match jsNumber s with
      | .fin q => some (.fin q)
      | _ => none
  | _ => none
where
  /-- the test `/^0x[0-9a-f]+$/i.test(s)` -/
  regexHex : List Char → Bool
  | '0' :: c :: rest =>
    (c = 'x' ∨ c = 'X') ∧ rest ≠ [] ∧
      rest.all fun d => ('0' ≤ d ∧ d ≤ '9') ∨ ('a' ≤ d ∧ d ≤ 'f') ∨ ('A' ≤ d ∧ d ≤ 'F')
  | _ => false
  /-- the test `/^0b[01]+$/i.test(s)` -/
  regexBin : List Char → Bool
  | '0' :: c :: rest =>
    (c = 'b' ∨ c = 'B') ∧ rest ≠ [] ∧ rest.all fun d => d = '0' ∨ d = '1'
  | _ => false

/-- `src/calculators.js` `parseSingleNumberToken`: trim, strip one
optional leading sign, match the hex/binary regexes against the
unsigned remainder (again via `parseInt`, so binary tokens collapse to
`0`), else `Number(unsigned)` truncated toward zero when finite.
`none` models the JS `null`. -/
def parseSingleNumberToken (tok : String) : Option ℤ :=
  let s := jsTrim tok
  if s = "" then none
  else
    let sign : ℤ := if s.data.head? = some '-' then -1 else 1
    let unsigned : List Char :=
      if s.data.head? = some '-' ∨ s.data.head? = some '+' then s.data.tail else s.data
    if toNumberIfPossible.regexHex unsigned then
      match jsParseInt ⟨unsigned⟩ 16 with
      | .fin q => some (sign * q.num)
      | _ => none
    else if toNumberIfPossible.regexBin unsigned then
      match jsParseInt ⟨unsigned⟩ 2 with
      | .fin q => some (sign * q.num)
      | _ => none
    else
      match jsNumber ⟨unsigned⟩ with
      | .fin q => some (sign * JsNum.trunc q)
      | _ => none

/-- JS `String(...)` applied to a JSON value (as the array-mode parser
does to node tokens), with structural fuel for the nested-array
recursion.  Integer-valued numbers are rendered exactly; the
fractional-number rendering of JS is not modelled faithfully (no
claim exercises fractional node ids). -/
def jsToStringFuel (fuel : ℕ) : Json → String
  | .num q => if q.den = 1 then toString q.num else toString q
  | .str s => s
  | .bool true => "true"
  | .bool false => "false"
  | .null => "null"
  | .arr elems =>
    match fuel with
    | 0 => ""
    | f + 1 =>
      String.intercalate "," (elems.map fun j =>
        match j with
        | .null => ""
        | j => jsToStringFuel f j)
  | .obj _ => "[object Object]"

/-- JS truthiness of a JSON value (`!parsed` in the array-mode parser). -/
def jsTruthy : Json → Bool
  | .num q => q ≠ 0
  | .str s => s ≠ ""
  | .bool b => b
  | .null => false
  | .arr _ => true
  | .obj _ => true

/-- `normalizeEdgeKey` from `src/graphParser.js`: `"u->v"` when
directed, else the two ids sorted and joined with `"--"`.  (JS sorts
strings by UTF-16 code units; Lean's `String` order, by code points,
agrees on all non-surrogate text.) -/
def normalizeEdgeKey (u v : String) (isDirected : Bool) : String :=
  if isDirected then u ++ "->" ++ v
  else if v < u then v ++ "--" ++ u else u ++ "--" ++ v

/-- One adjacency entry `{to, weight, edgeId}` (the `to` field is
spelled `toId` because `to` is reserved in Lean). -/
structure AdjEntry where
  toId : String
  weight : JsNum
  edgeId : ℕ
deriving DecidableEq, Repr

/-- One element of the parser's `edgesArr`.  The JS stores
`label: String(w)` for weighted graphs; we keep the numeric value
(the display stringification is elided) and `arrows: "to"` as a flag. -/
structure Edge where
  id : ℕ
  fromId : String
  toId : String
  label : Option JsNum
  arrows : Bool
deriving DecidableEq, Repr

/-- A node of the output model. -/
structure Node where
  id : String
  label : String
deriving DecidableEq, Repr

/-- The graph model returned by `parseGraphInput`. -/
structure Model where
  nodesArr : List Node
  edgesArr : List Edge
  adjacency : List (String × List AdjEntry)
  edgeKeyToId : List (String × ℕ)
  isDirected : Bool
deriving DecidableEq, Repr

/-- The mutable parser state accumulated by `addEdge`. -/
structure PState where
  adjacency : List (String × List AdjEntry)
  edgeKeyToId : List (String × ℕ)
  nodesSet : List String
  edgesArr : List Edge
  edgeIdCounter : ℕ
deriving DecidableEq, Repr

/-- The empty initial parser state. -/
def PState.init : PState := ⟨[], [], [], [], 0⟩

/-- Append an adjacency entry to the list at key `k` (the JS
`adjacency[k] = adjacency[k] || []; adjacency[k].push(e)`). -/
def adjPush (m : List (String × List AdjEntry)) (k : String) (e : AdjEntry) :
    List (String × List AdjEntry) :=
  match m with
  | [] => [(k, [e])]
  | (k', l) :: rest => if k' = k then (k', l ++ [e]) :: rest else (k', l) :: adjPush rest k e

/-- Last-write-wins assignment on a string-keyed object
(`edgeKeyToId[key] = id`). -/
def assocSet (m : List (String × ℕ)) (k : String) (v : ℕ) : List (String × ℕ) :=
  match m with
  | [] => [(k, v)]
  | (k', v') :: rest => if k' = k then (k', v) :: rest else (k', v') :: assocSet rest k v

/-- Lookup in a string-keyed object; `none` models `undefined`. -/
def assocGet {α : Type} (m : List (String × α)) (k : String) : Option α :=
  match m with
  | [] => none
  | (k', v) :: rest => if k' = k then some v else assocGet rest k

/-- Last-write-wins assignment on a string-keyed object with values of
any type (used to collapse duplicate JSON object keys). -/
def assocSetV {α : Type} (m : List (String × α)) (k : String) (v : α) : List (String × α) :=
  match m with
  | [] => [(k, v)]
  | (k', v') :: rest => if k' = k then (k', v) :: rest else (k', v') :: assocSetV rest k v

/-- `Set.prototype.add`: insert if absent, keeping insertion order. -/
def setAdd (s : List String) (x : String) : List String :=
  if x ∈ s then s else s ++ [x]

/-- The JS value passed as `addEdge`'s `weight` argument:
`undefined` (no third field), `null` (a failed `toNumberIfPossible`),
or a number. -/
inductive WParam where
  | undefVal
  | jsnull
  | num (x : JsNum)
deriving DecidableEq, Repr

/-- `Number(weight)` on that argument: `Number(undefined)` is `NaN`
and `Number(null)` is `0`. -/
def WParam.toNumber : WParam → JsNum
  | .undefVal => .nan
  | .jsnull => .fin 0
  | .num x => x

/-- The parser's inner `addEdge(fromId, toId, weight)` helper,
translated line by line.  `w` is `undefined` (`none`) or a number. -/
def addEdge (weighted directed : Bool) (st : PState) (fromId toId : String)
    (weight : WParam) : PState :=
  let nw := weight.toNumber
  let w : Option JsNum :=
    if weighted then some (if nw.isFinite then nw else .fin 1)
    else if nw.isFinite then some nw else none
  let edgeObj : Edge :=
    { id := st.edgeIdCounter, fromId := fromId, toId := toId,
      label := if weighted then some (w.getD (.fin 1)) else none,
      arrows := directed }
  let key := normalizeEdgeKey fromId toId directed
  let adjacency := adjPush st.adjacency fromId ⟨toId, w.getD (.fin 1), st.edgeIdCounter⟩
  let adjacency :=
    if ¬ directed then adjPush adjacency toId ⟨fromId, w.getD (.fin 1), st.edgeIdCounter⟩
    else adjacency
  { adjacency := adjacency
    edgeKeyToId := assocSet st.edgeKeyToId key st.edgeIdCounter
    nodesSet := setAdd (setAdd st.nodesSet fromId) toId
    edgesArr := st.edgesArr ++ [edgeObj]
    edgeIdCounter := st.edgeIdCounter + 1 }

/-- Split a character list at every character satisfying `p`, keeping
empty pieces, like the JS `split` (kernel-reducible replacement for
the core string functions, which use well-founded recursion). -/
def splitChars (p : Char → Bool) (l : List Char) : List (List Char) :=
  l.foldr
    (fun c r =>
      if p c then [] :: r
      else
        match r with
        | h :: t => (c :: h) :: t
        | [] => [[c]])
    [[]]

/-- JS `s.split(sep)` for a one-character separator. -/
def jsSplitOn (s : String) (c : Char) : List String :=
  (splitChars (· = c) s.data).map fun l => ⟨l⟩

/-- JS `s.includes(sep)` for a one-character separator. -/
def jsIncludes (s : String) (c : Char) : Bool :=
  s.data.any (· = c)

/-- `split(/\s+/).filter(Boolean)`: splitting per whitespace character
and dropping empties agrees with splitting on whitespace runs. -/
def splitWs (s : String) : List String :=
  ((splitChars jsWhitespace s.data).map fun l => (⟨l⟩ : String)).filter (· ≠ "")

/-- Process one neighbor token of an adjacency-list line
(`"v-w"` is a weighted neighbor, anything else is unweighted). -/
def plainNeighborTok (weighted directed : Bool) (fromN : String) (st : PState)
    (tok : String) : PState :=
  if tok = "" then st
  else if jsIncludes tok '-' then
    let pieces := jsSplitOn tok '-'
    let vRaw := pieces.headD ""
    let wRaw := pieces.tail.headD ""
    let toN := jsTrim vRaw
    let w : JsNum := (toNumberIfPossible (.str wRaw)).getD (.fin 1)
    addEdge weighted directed st fromN toN (.num w)
  else
    addEdge weighted directed st fromN (jsTrim tok) .undefVal

/-- Process one non-blank plain-text line: adjacency-list syntax when
it contains `:`, else edge-list syntax `u v [w]`. -/
def plainLine (weighted directed : Bool) (st : PState) (line : String) : PState :=
  if jsIncludes line ':' then
    let pieces := jsSplitOn line ':'
    let nodePart := pieces.headD ""
    let neighborsPart := pieces.tail.headD ""
    let fromN := jsTrim nodePart
    let st := { st with nodesSet := setAdd st.nodesSet fromN }
    let neighbors := splitWs (jsTrim neighborsPart)
    neighbors.foldl (plainNeighborTok weighted directed fromN) st
  else
    let parts := splitWs line
    if parts.length < 2 then st
    else
      let u := parts.headD ""
      let v := (parts.drop 1).headD ""
      let w : WParam :=
        match parts.drop 2 with
        | [] => .undefVal
        | wRaw :: _ =>
          match toNumberIfPossible (.str wRaw) with
          | none => .jsnull
          | some x => .num x
      addEdge weighted directed st u v w

/-- The plain-text mode of `parseGraphInput`: split on newlines, trim,
drop blank lines, process each line. -/
def parsePlainMode (weighted directed : Bool) (rawText : String) : PState :=
  let lines := ((jsSplitOn rawText '\n').map jsTrim).filter (· ≠ "")
  lines.foldl (plainLine weighted directed) PState.init

/-- JSON whitespace (space, tab, line feed, carriage return). -/
def jsonWs (c : Char) : Bool :=
  c = ' ' ∨ c = '\t' ∨ c = '\n' ∨ c = '\x0d'

/-- Parse a JSON string body after the opening quote, handling the
standard escapes (`\uXXXX` surrogate-pair recombination is not
modelled; no claim exercises it).  The structural `fuel` bounds the
iteration count; each step consumes at least one character, so
`fuel = l.length` suffices. -/
def parseJsonStringFuel (fuel : ℕ) (l : List Char) (acc : List Char) :
    Option (String × List Char) :=
  match fuel with
  | 0 => none
  | f + 1 =>
    match l with
    | [] => none
    | '"' :: rest => some (⟨acc.reverse⟩, rest)
    | '\\' :: e :: rest =>
      match e with
      | '"' => parseJsonStringFuel f rest ('"' :: acc)
      | '\\' => parseJsonStringFuel f rest ('\\' :: acc)
      | '/' => parseJsonStringFuel f rest ('/' :: acc)
      | 'b' => parseJsonStringFuel f rest ('\x08' :: acc)
      | 'f' => parseJsonStringFuel f rest ('\x0c' :: acc)
      | 'n' => parseJsonStringFuel f rest ('\n' :: acc)
      | 'r' => parseJsonStringFuel f rest ('\x0d' :: acc)
      | 't' => parseJsonStringFuel f rest ('\t' :: acc)
      | 'u' =>
        match rest with
        | a :: b :: c :: d :: rest2 =>
          if [a, b, c, d].all (isRadixDigit 16) then
            parseJsonStringFuel f rest2 (Char.ofNat (digitsVal 16 [a, b, c, d]) :: acc)
          else none
        | _ => none
      | _ => none
    | c :: rest => if c.toNat < 0x20 then none else parseJsonStringFuel f rest (c :: acc)

/-- JSON string body with adequate fuel. -/
def parseJsonString (l : List Char) (acc : List Char) : Option (String × List Char) :=
  parseJsonStringFuel (l.length + 1) l acc

/-- Optional fraction part of a JSON number. -/
def parseJsonFracPart (l : List Char) : Option (ℚ × List Char) :=
  match l with
  | '.' :: rest =>
    let fs := rest.takeWhile Char.isDigit
    if fs = [] then none
    else some ((digitsVal 10 fs : ℚ) / 10 ^ fs.length, rest.dropWhile Char.isDigit)
  | _ => some (0, l)

/-- Optional exponent part of a JSON number. -/
def parseJsonExpPart (l : List Char) : Option (ℤ × List Char) :=
  match l with
  | c :: rest =>
    if c = 'e' ∨ c = 'E' then
      match rest with
      | '+' :: r2 =>
        let ds := r2.takeWhile Char.isDigit
        if ds = [] then none else some ((digitsVal 10 ds : ℤ), r2.dropWhile Char.isDigit)
      | '-' :: r2 =>
        let ds := r2.takeWhile Char.isDigit
        if ds = [] then none else some (-(digitsVal 10 ds : ℤ), r2.dropWhile Char.isDigit)
      | r2 =>
        let ds := r2.takeWhile Char.isDigit
        if ds = [] then none else some ((digitsVal 10 ds : ℤ), r2.dropWhile Char.isDigit)
    else some (0, l)
  | [] => some (0, [])

/-- A JSON number literal: `-? (0 | [1-9][0-9]*) frac? exp?`. -/
def parseJsonNumber (l : List Char) : Option (ℚ × List Char) :=
  let signed : Option (ℚ × List Char) :=
    match l with
    | '-' :: r => some (-1, r)
    | c :: _ => if c.isDigit then some (1, l) else none
    | [] => none
  match signed with
  | none => none
  | some (sign, l1) =>
    let intRes : Option (ℕ × List Char) :=
      match l1 with
      | '0' :: rest => some (0, rest)
      | c :: rest =>
        if c.isDigit then
          some (digitsVal 10 (c :: rest.takeWhile Char.isDigit), rest.dropWhile Char.isDigit)
        else none
      | [] => none
    match intRes with
    | none => none
    | some (ip, l2) =>
      match parseJsonFracPart l2 with
      | none => none
      | some (fp, l3) =>
        match parseJsonExpPart l3 with
        | none => none
        | some (e, l4) => some (sign * ((ip : ℚ) + fp) * (10 : ℚ) ^ e, l4)

mutual

/-- One JSON value (fueled recursive-descent model of `JSON.parse`). -/
def parseJsonValue : ℕ → List Char → Option (Json × List Char)
  | 0, _ => none
  | fuel + 1, l =>
    match l.dropWhile jsonWs with
    | 'n' :: 'u' :: 'l' :: 'l' :: rest => some (.null, rest)
    | 't' :: 'r' :: 'u' :: 'e' :: rest => some (.bool true, rest)
    | 'f' :: 'a' :: 'l' :: 's' :: 'e' :: rest => some (.bool false, rest)
    | '"' :: rest => (parseJsonString rest []).map fun p => (.str p.1, p.2)
    | '[' :: rest =>
      match rest.dropWhile jsonWs with
      | ']' :: rest2 => some (.arr [], rest2)
      | rest2 => (parseJsonElems fuel rest2).map fun p => (.arr p.1, p.2)
    | '{' :: rest =>
      match rest.dropWhile jsonWs with
      | '}' :: rest2 => some (.obj [], rest2)
      | rest2 =>
        (parseJsonMembers fuel rest2).map fun p =>
          (.obj (p.1.foldl (fun m kv => assocSetV m kv.1 kv.2) []), p.2)
    | l' => (parseJsonNumber l').map fun p => (.num p.1, p.2)

/-- Comma-separated JSON array elements up to the closing bracket. -/
def parseJsonElems : ℕ → List Char → Option (List Json × List Char)
  | 0, _ => none
  | fuel + 1, l =>
    match parseJsonValue fuel l with
    | none => none
    | some (v, r) =>
      match r.dropWhile jsonWs with
      | ',' :: r2 => (parseJsonElems fuel r2).map fun p => (v :: p.1, p.2)
      | ']' :: r2 => some ([v], r2)
      | _ => none

/-- Comma-separated JSON object members up to the closing brace. -/
def parseJsonMembers : ℕ → List Char → Option (List (String × Json) × List Char)
  | 0, _ => none
  | fuel + 1, l =>
    match l.dropWhile jsonWs with
    | '"' :: lk =>
      match parseJsonString lk [] with
      | none => none
      | some (k, r) =>
        match r.dropWhile jsonWs with
        | ':' :: r2 =>
          match parseJsonValue fuel r2 with
          | none => none
          | some (v, r3) =>
            match r3.dropWhile jsonWs with
            | ',' :: r4 => (parseJsonMembers fuel r4).map fun p => ((k, v) :: p.1, p.2)
            | '}' :: r4 => some ([(k, v)], r4)
            | _ => none
        | _ => none
    | _ => none

end

/-- The `JSON.parse` builtin: one value, then only trailing whitespace.
`none` models a thrown `SyntaxError`. -/
def jsonParse (s : String) : Option Json :=
  match parseJsonValue (s.length + 1) s.data with
  | some (v, rest) => if rest.dropWhile jsonWs = [] then some v else none
  | none => none

/-- Depth-counting scan of `extractAndParseFirstBracketed`: collect
characters from an opening `[` up to its balancing `]`. -/
def balancedPrefix (depth : ℕ) (acc : List Char) : List Char → Option (List Char)
  | [] => none
  | c :: rest =>
    if c = '[' then balancedPrefix (depth + 1) (c :: acc) rest
    else if c = ']' then
      if depth = 1 then some (c :: acc).reverse
      else balancedPrefix (depth - 1) (c :: acc) rest
    else balancedPrefix depth (c :: acc) rest

/-- `extractAndParseFirstBracketed` from `src/graphParser.js`: find the
first `[`, take the balanced bracketed substring (oblivious to string
literals, as the source is), and `JSON.parse` it.  `none` models any
of its `throw`s, which the caller catches. -/
def extractAndParseFirstBracketed (raw : String) : Option Json :=
  let fromBracket := raw.data.dropWhile (· ≠ '[')
  match fromBracket with
  | [] => none
  | l => match balancedPrefix 0 [] l with
         | none => none
         | some sub => jsonParse ⟨sub⟩

/-- Try to match the regex `edges\s*=\s*(\[.*)` (with the `s` flag)
starting exactly at the given position; on success return the capture,
which runs from the `[` to the end of the input. -/
def matchEdgesAt (l : List Char) : Option (List Char) :=
  match l with
  | 'e' :: 'd' :: 'g' :: 'e' :: 's' :: rest =>
    match rest.dropWhile jsWhitespace with
    | '=' :: r2 =>
      match r2.dropWhile jsWhitespace with
      | '[' :: r3 => some ('[' :: r3)
      | _ => none
    | _ => none
  | _ => none

/-- Leftmost match of the `edges\s*=\s*(\[.*)` pattern. -/
def findEdgesPattern : List Char → Option (List Char)
  | [] => none
  | c :: rest =>
    match matchEdgesAt (c :: rest) with
    | some cap => some cap
    | none => findEdgesPattern rest

/-- Error message for completely unparseable array-mode input. -/
def arrayFailMsg : String :=
  "Failed to parse array-style input. Ensure it\x27s valid JSON array-like text (e.g. [[1,2],[2,3]])."

/-- Error message for an object with no usable array property. -/
def noArrayPropMsg : String :=
  "Parsed JSON is an object but no array-property found to interpret as edges or adjacency."

/-- Error message when the parsed value is not an array. -/
def notArrayMsg : String :=
  "Array-mode parsing did not result in an array."

/-- Error message for an array of unrecognized shape. -/
def unrecognizedMsg : String :=
  "Unrecognized array structure. Expected array of edges (e.g. [[u,v],[u,v,w],...]) or adjacency-list (e.g. [[1,2],[2],[0]])."

/-- Is this JSON value an array? (`Array.isArray`). -/
def Json.isArray : Json → Bool
  | .arr _ => true
  | _ => false

/-- The tail of the array mode, from the `if (!parsed)` test on: the
truthiness check, object-property replacement, array classification
and the `addEdge` folds (split from `parseArrayMode` so the JSON-parse
fallback chain and the classification can be reasoned about
separately).  `parsed = none` models the JS `parsed` still being
`null`. -/
def parseArrayClassify (weighted directed : Bool) (rawText : String)
    (parsed : Option Json) : Except String PState :=
  match parsed with
  | none => .error arrayFailMsg
  | some p0 =>
    if ¬ jsTruthy p0 then .error arrayFailMsg
    else
      let replaced : Except String Json :=
        match p0 with
        | .obj fields =>
          match assocGet fields "edges" with
          | some (.arr l) => .ok (.arr l)
          | _ =>
            match assocGet fields "graph" with
            | some (.arr l) => .ok (.arr l)
            | _ =>
              match fields.find? fun kv => kv.2.isArray with
              | some kv => .ok kv.2
              | none => .error noArrayPropMsg
        | p => .ok p
      match replaced with
      | .error msg => .error msg
      | .ok p =>
        match p with
        | .arr elems =>
          let isEdgesList : Bool :=
            !elems.isEmpty && elems.all fun el =>
              match el with
              | .arr l => decide (2 ≤ l.length)
              | _ => false
          let isAdjList : Bool :=
            !elems.isEmpty && elems.all fun el =>
              match el with
              | .arr _ => true
              | _ => false
          if isEdgesList then
            .ok (elems.foldl (fun st entry =>
              match entry with
              | .arr (uRaw :: vRaw :: rest) =>
                let u := jsToStringFuel (rawText.length + 1) uRaw
                let v := jsToStringFuel (rawText.length + 1) vRaw
                let w : WParam :=
                  match rest with
                  | [] => .undefVal
                  | wRaw :: _ =>
                    match toNumberIfPossible wRaw with
                    | none => .jsnull
                    | some x => .num x
                addEdge weighted directed st u v w
              | _ => st) PState.init)
          else if isAdjList then
            .ok ((List.range elems.length).foldl (fun st i =>
              match elems.getD i .null with
              | .arr neigh =>
                neigh.foldl (fun st2 vRaw =>
                  addEdge weighted directed st2 (toString i)
                    (jsToStringFuel (rawText.length + 1) vRaw) .undefVal) st
              | _ => st) PState.init)
          else .error unrecognizedMsg
        | _ => .error notArrayMsg

/-- The array mode of `parseGraphInput`: `JSON.parse`, then the
balanced-bracket fallback, then the `edges = [...]` fallback; the
result (`none` when all three threw) goes through
`parseArrayClassify`. -/
def parseArrayMode (weighted directed : Bool) (rawText : String) : Except String PState :=
  parseArrayClassify weighted directed rawText
    (match jsonParse rawText with
     | some v => some v
     | none =>
       match extractAndParseFirstBracketed rawText with
       | some v => some v
       | none =>
         match findEdgesPattern rawText.data with
         | some cap => jsonParse ⟨cap⟩
         | none => none)

/-- The `parseGraphInput` options object. -/
structure ParseOptions where
  weighted : Bool
  directed : Bool
  inputMode : String
deriving DecidableEq, Repr

/-- `parseGraphInput(rawText, options)` from `src/graphParser.js`.
`Except.error` models a thrown `Error` carrying its message. -/
def parseGraphInput (rawText : String) (options : ParseOptions) : Except String Model :=
  let weighted := options.weighted
  let directed := options.directed
  let inputMode := if options.inputMode = "" then "plain" else options.inputMode
  let stE : Except String PState :=
    if inputMode = "array" then parseArrayMode weighted directed rawText
    else .ok (parsePlainMode weighted directed rawText)
  stE.map fun st =>
    { nodesArr := st.nodesSet.map fun id => ⟨id, id⟩
      edgesArr := st.edgesArr
      adjacency := st.adjacency
      edgeKeyToId := st.edgeKeyToId
      isDirected := directed }

/-! ## `src/algorithms.js` -/

/-- An entry of the `MinHeap` used by Dijkstra: `{node, priority}`. -/
structure HeapItem where
  node : String
  priority : JsNum
deriving DecidableEq, Repr

/-- Indexing into the heap array; call sites are in bounds. -/
def heapGetD (d : List HeapItem) (i : ℕ) : HeapItem :=
  d.getD i ⟨"", .nan⟩

/-- The heap's `_swap(a, b)`. -/
def heapSwap (d : List HeapItem) (a b : ℕ) : List HeapItem :=
  (d.set a (heapGetD d b)).set b (heapGetD d a)

/-- The heap's `_siftUp(i)` loop: `_parent(i) = Math.floor((i-1)/2)`.
The structural `fuel` only bounds the iteration count; since the index
strictly decreases, `fuel = i` (as `siftUp` passes) never runs out. -/
def siftUpFuel (fuel : ℕ) (d : List HeapItem) (i : ℕ) : List HeapItem :=
  match i with
  | 0 => d
  | j + 1 =>
    match fuel with
    | 0 => d
    | f + 1 =>
      let p := j / 2
      if (heapGetD d p).priority.le (heapGetD d (j + 1)).priority then d
      else siftUpFuel f (heapSwap d (j + 1) p) p

/-- `_siftUp(i)` with adequate fuel. -/
def siftUp (d : List HeapItem) (i : ℕ) : List HeapItem :=
  siftUpFuel i d i

/-- The heap's `_siftDown(i)` loop.  The source computes
`smallest = i`, updates it to `l` and then to `r` under the two
comparisons, and loops while `smallest ≠ i`; the cases are expanded
here.  The structural `fuel` only bounds the iteration count; the
index strictly increases and stays below the (invariant) array length,
so `fuel = d.length` (as `siftDown` passes) never runs out. -/
def siftDownFuel (fuel : ℕ) (d : List HeapItem) (i : ℕ) : List HeapItem :=
  match fuel with
  | 0 => d
  | f + 1 =>
    let l := 2 * i + 1
    let r := 2 * i + 2
    if l < d.length ∧ (heapGetD d l).priority.lt (heapGetD d i).priority then
      if r < d.length ∧ (heapGetD d r).priority.lt (heapGetD d l).priority then
        siftDownFuel f (heapSwap d i r) r
      else
        siftDownFuel f (heapSwap d i l) l
    else
      if r < d.length ∧ (heapGetD d r).priority.lt (heapGetD d i).priority then
        siftDownFuel f (heapSwap d i r) r
      else d

/-- `_siftDown(i)` with adequate fuel. -/
def siftDown (d : List HeapItem) (i : ℕ) : List HeapItem :=
  siftDownFuel d.length d i

/-- The array-backed binary min-heap of `src/algorithms.js`. -/
structure MinHeap where
  data : List HeapItem
deriving DecidableEq, Repr

/-- `push(item)`: append, then sift up from the last index. -/
def MinHeap.push (h : MinHeap) (item : HeapItem) : MinHeap :=
  let d := h.data ++ [item]
  ⟨siftUp d (d.length - 1)⟩

/-- `pop()`: swap root and last, remove the last element, sift the new
root down.  Returns `none` on an empty heap (the JS `null`). -/
def MinHeap.pop (h : MinHeap) : Option HeapItem × MinHeap :=
  if h.data.length = 0 then (none, h)
  else
    let d1 := heapSwap h.data 0 (h.data.length - 1)
    (d1.getLast?, ⟨siftDown d1.dropLast 0⟩)

/-- `isEmpty()`. -/
def MinHeap.isEmpty (h : MinHeap) : Bool :=
  h.data.length = 0

/-- Dijkstra's mutable state: the `dist` and `prev` objects and the
priority queue.  A missing `dist` key models the JS `undefined`; a
`prev` value of `none` models the JS `null`. -/
structure DState where
  dist : List (String × JsNum)
  prev : List (String × Option String)
  pq : MinHeap
deriving DecidableEq, Repr

/-- One relaxation: `alt = dist[u] + Number(e.weight); if (alt < dist[v])`
update `dist`, `prev` and push `{v, alt}`.  Arithmetic on a missing
`dist[u]` behaves as on `NaN`, and `alt < undefined` is false, exactly
as in JS. -/
def dijkstraRelax (u : String) (st : DState) (e : AdjEntry) : DState :=
  let v := e.toId
  let w := e.weight
  let alt := ((assocGet st.dist u).getD .nan).add w
  let doRelax : Bool :=
    match assocGet st.dist v with
    | some dv => alt.lt dv
    | none => false
  if doRelax then
    { dist := assocSetV st.dist v alt
      prev := assocSetV st.prev v (some u)
      pq := st.pq.push ⟨v, alt⟩ }
  else st

/-- Dijkstra's `while (!pq.isEmpty())` loop with lazy deletion and the
early exit on popping the target.  The JS loop can run forever (e.g.
relaxation across a negative-weight undirected edge), so it takes
fuel; `none` means the fuel ran out. -/
def dijkstraLoop (adjacency : List (String × List AdjEntry)) (target : String) :
    ℕ → DState → Option DState
  | 0, _ => none
  | fuel + 1, st =>
    if st.pq.isEmpty then some st
    else
      match st.pq.pop with
      | (none, _) => some st
      | (some it, pq') =>
        let st := { st with pq := pq' }
        let u := it.node
        let d := it.priority
        let stale : Bool :=
          match assocGet st.dist u with
          | some du => du.lt d
          | none => false
        if stale then dijkstraLoop adjacency target fuel st
        else if u = target then some st
        else
          let neighbors := (assocGet adjacency u).getD []
          dijkstraLoop adjacency target fuel (neighbors.foldl (dijkstraRelax u) st)

/-- The path-reconstruction loop `while (cur !== null)`.  A missing
`prev` entry makes the JS loop run forever (`cur` becomes `undefined`);
that case returns `none`. -/
def buildPath (prev : List (String × Option String)) :
    ℕ → String → List String → Option (List String)
  | 0, _, _ => none
  | fuel + 1, cur, acc =>
    match assocGet prev cur with
    | some (some nxt) => buildPath prev fuel nxt (acc ++ [cur])
    | some none => some (acc ++ [cur])
    | none => none

/-- Map consecutive path pairs to edge ids via `edgeKeyToId`, trying
the natural key first and the reversed key second; unresolvable pairs
are skipped. -/
def pathEdgeIds (edgeKeyToId : List (String × ℕ)) (isDirected : Bool) :
    List String → List ℕ
  | a :: b :: rest =>
    let tail := pathEdgeIds edgeKeyToId isDirected (b :: rest)
    match assocGet edgeKeyToId (normalizeEdgeKey a b isDirected) with
    | some eid => eid :: tail
    | none =>
      match assocGet edgeKeyToId (normalizeEdgeKey b a isDirected) with
      | some eid => eid :: tail
      | none => tail
  | _ => []

/-- The result object of `dijkstraPQ`. -/
structure DijkstraResult where
  distance : JsNum
  path : List String
  edgeIds : List ℕ
deriving DecidableEq, Repr

/-- The early-return value `{distance: Infinity, path: [], edgeIds: []}`. -/
def emptyResult : DijkstraResult := ⟨.pinf, [], []⟩

/-- The tail of `dijkstraPQ` after the relaxation loop: the
`isFinite(dist[target])` test, path reconstruction, and edge-id
mapping (split out of `dijkstraPQ` so its cases can be reasoned about
separately). -/
def dijkstraFinish (edgeKeyToId : List (String × ℕ)) (isDirected : Bool)
    (target : String) (fuel : ℕ) (st : DState) : Option DijkstraResult :=
  let finiteT : Bool :=
    match assocGet st.dist target with
    | some dt => dt.isFinite
    | none => false
  if ¬ finiteT then some emptyResult
  else
    match buildPath st.prev fuel target [] with
    | none => none
    | some pushed =>
      let path := pushed.reverse
      some { distance := (assocGet st.dist target).getD .nan
             path := path
             edgeIds := pathEdgeIds edgeKeyToId isDirected path }

/-- `dijkstraPQ(adjacency, edgeKeyToId, isDirected, source, target,
nodesIterable)` from `src/algorithms.js`.  `adjacency = none` models a
missing adjacency argument, and an empty source or target id is falsy,
so the guard returns the empty result.  The outer `none` means the
fuel ran out (the JS loop did not terminate within `fuel` steps). -/
def dijkstraPQ (adjacency : Option (List (String × List AdjEntry)))
    (edgeKeyToId : List (String × ℕ)) (isDirected : Bool)
    (source target : String) (nodesIterable : List String) (fuel : ℕ) :
    Option DijkstraResult :=
  if adjacency.isNone ∨ source = "" ∨ target = "" then some emptyResult
  else
    let adj := adjacency.getD []
    let dist0 := nodesIterable.foldl (fun m n => assocSetV m n JsNum.pinf) []
    let prev0 := nodesIterable.foldl (fun m n => assocSetV m n (none : Option String)) []
    let dist1 := assocSetV dist0 source (.fin 0)
    let pq0 := MinHeap.push ⟨[]⟩ ⟨source, .fin 0⟩
    match dijkstraLoop adj target fuel ⟨dist1, prev0, pq0⟩ with
    | none => none
    | some st => dijkstraFinish edgeKeyToId isDirected target fuel st

/-- A candidate frontier edge of `primMST`. -/
structure Cand where
  fromId : String
  toId : String
  weight : JsNum
  edgeId : ℕ
deriving DecidableEq, Repr

/-- The sort comparator `(a, b) => a.weight - b.weight`, as a `≤`-test:
a non-positive comparator value keeps `a` before `b`; a `NaN`
comparator value is treated as `0` by `Array.prototype.sort`. -/
def candLe (a b : Cand) : Bool :=
  match a.weight.sub b.weight with
  | .fin q => q ≤ 0
  | .nan => true
  | .ninf => true
  | .pinf => false

/-- Stable insertion of an element into a sorted list. -/
def insertSorted (a : Cand) : List Cand → List Cand
  | [] => [a]
  | b :: l => if candLe a b then a :: b :: l else b :: insertSorted a l

/-- `edgeCandidates.sort((a, b) => a.weight - b.weight)`: JS sort is
stable, and for the consistent comparators that actually arise (finite
weights) every stable sort agrees, so a stable insertion sort models
it. -/
def jsSortByWeight (l : List Cand) : List Cand :=
  l.foldr insertSorted []

/-- Find the first candidate whose endpoint is outside the tree and
splice it out (the JS index scan plus `splice(idx, 1)`); `none` models
`idx === -1`. -/
def spliceFirstOut (inMST : List String) : List Cand → Option (Cand × List Cand)
  | [] => none
  | c :: rest =>
    if c.toId ∈ inMST then
      match spliceFirstOut inMST rest with
      | none => none
      | some (ch, l) => some (ch, c :: l)
    else some (c, rest)

/-- Prim's mutable state. -/
structure PrimState where
  inMST : List String
  cands : List Cand
  chosen : List ℕ
  totalWeight : JsNum
deriving DecidableEq, Repr

/-- The `while (inMST.size < nodes.length && edgeCandidates.length > 0)`
loop of `primMST`.  Every iteration adds one node to `inMST`, so fuel
`nodes.length` always suffices (proved below); `none` is fuel
exhaustion. -/
def primLoop (adjacency : List (String × List AdjEntry)) (numNodes : ℕ) :
    ℕ → PrimState → Option PrimState
  | 0, _ => none
  | fuel + 1, st =>
    if st.inMST.length < numNodes ∧ st.cands ≠ [] then
      let sorted := jsSortByWeight st.cands
      match spliceFirstOut st.inMST sorted with
      | none => some st
      | some (ch, rest) =>
        let inMST := setAdd st.inMST ch.toId
        let newCands :=
          ((assocGet adjacency ch.toId).getD []).filterMap fun e =>
            if e.toId ∈ inMST then none
            else some (⟨ch.toId, e.toId, e.weight, e.edgeId⟩ : Cand)
        primLoop adjacency numNodes fuel
          { inMST := inMST
            cands := rest ++ newCands
            chosen := st.chosen ++ [ch.edgeId]
            totalWeight := st.totalWeight.add ch.weight }
    else some st

/-- The result object of `primMST`. -/
structure MSTResult where
  totalWeight : JsNum
  edgeIds : List ℕ
deriving DecidableEq, Repr

/-- `primMST(adjacency, nodesIterable, startNode)` from
`src/algorithms.js`.  A `startNode` of `none` models the JS `null`
default; an empty-string `startNode` is falsy and also falls back to
the first node. -/
def primMST (adjacency : List (String × List AdjEntry)) (nodesIterable : List String)
    (startNode : Option String) : Option MSTResult :=
  let nodes := nodesIterable
  if nodes.length = 0 then some ⟨.fin 0, []⟩
  else
    let start :=
      match startNode with
      | some s => if s ≠ "" ∧ s ∈ nodes then s else nodes.headD ""
      | none => nodes.headD ""
    let seed := ((assocGet adjacency start).getD []).map fun e =>
      (⟨start, e.toId, e.weight, e.edgeId⟩ : Cand)
    (primLoop adjacency nodes.length nodes.length ⟨[start], seed, [], .fin 0⟩).map
      fun st => ⟨st.totalWeight, st.chosen⟩

/-! ## Definitions used only by the proofs -/

/-- The model parsed from `"A B"` (unweighted, undirected, plain mode),
used to witness C8 and C9 at a concrete input. -/
def abModel : Model :=
  { nodesArr := [⟨"A", "A"⟩, ⟨"B", "B"⟩]
    edgesArr := [⟨0, "A", "B", none, false⟩]
    adjacency := [("A", [⟨"B", .fin 1, 0⟩]), ("B", [⟨"A", .fin 1, 0⟩])]
    edgeKeyToId := [("A--B", 0)]
    isDirected := false }

/-- The adjacency map the parser builds for `"A B 1\nB C -5"` in
weighted undirected plain mode: an edge `A - B` of weight 1 and a
negative undirected edge `B - C` (proved below by evaluation). -/
def advAdj : List (String × List AdjEntry) :=
  [("A", [⟨"B", .fin 1, 0⟩]),
   ("B", [⟨"A", .fin 1, 0⟩, ⟨"C", .fin (-5), 1⟩]),
   ("C", [⟨"B", .fin (-5), 1⟩])]

/-- The edge-key map of the same model. -/
def advEk : List (String × ℕ) := [("A--B", 0), ("B--C", 1)]

/-- States of the run of the shortest-path engine from `C` towards
`A` on `advAdj` just before an even pop: the queue root is the live
`C` entry, every other queued entry is a stale `A` entry no smaller
than the current tentative distance of `A`, and the tentative
distances have been pumped `a` rounds around the negative two-cycle
between `B` and `C`. -/
def DivInv (a : ℕ) (st : DState) : Prop :=
  st.dist = [("A", .fin (-4 - 10 * (a : ℚ))), ("B", .fin (-5 - 10 * (a : ℚ))),
    ("C", .fin (-10 - 10 * (a : ℚ)))] ∧
  ∃ rest, st.pq.data = ⟨"C", .fin (-10 - 10 * (a : ℚ))⟩ :: rest ∧ rest ≠ [] ∧
    ∀ x ∈ rest, x.node = "A" ∧ ∃ qx : ℚ, x.priority = .fin qx ∧ -4 - 10 * (a : ℚ) ≤ qx

/-- The matching states half a pump round later: the queue root is
the live `B` entry. -/
def OddInv (a : ℕ) (st : DState) : Prop :=
  st.dist = [("A", .fin (-4 - 10 * (a : ℚ))), ("B", .fin (-15 - 10 * (a : ℚ))),
    ("C", .fin (-10 - 10 * (a : ℚ)))] ∧
  ∃ rest, st.pq.data = ⟨"B", .fin (-15 - 10 * (a : ℚ))⟩ :: rest ∧ rest ≠ [] ∧
    ∀ x ∈ rest, x.node = "A" ∧ ∃ qx : ℚ, x.priority = .fin qx ∧ -4 - 10 * (a : ℚ) ≤ qx

/-- The state of the `C` to `A` run after its first two loop
iterations (popping `C` at 0 and `B` at -5). -/
def divStart : DState :=
  ⟨[("A", .fin (-4)), ("B", .fin (-5)), ("C", .fin (-10))],
   [("A", some "B"), ("B", some "C"), ("C", some "B")],
   ⟨[⟨"C", .fin (-10)⟩, ⟨"A", .fin (-4)⟩]⟩⟩

/-- A character list with neither leading nor trailing JS whitespace
(trimming it changes nothing). -/
def TrimmedL (l : List Char) : Prop :=
  l.dropWhile jsWhitespace = l ∧ l.reverse.dropWhile jsWhitespace = l.reverse

/-! ### Undirected graphs as edge lists (C2, C7)

An undirected weighted multigraph is a list of edges; the edge id is
the list position, matching the parser's dense edge ids. -/

/-- One undirected edge with a finite numeric weight. -/
structure UEdge where
  u : String
  v : String
  w : ℚ
deriving DecidableEq, Repr

/-- Push both adjacency entries of edge `i = (u, v, w)`, exactly as the
undirected branch of `addEdge` does. -/
def pushUEdge (adj : List (String × List AdjEntry)) (i : ℕ) (e : UEdge) :
    List (String × List AdjEntry) :=
  adjPush (adjPush adj e.u ⟨e.v, .fin e.w, i⟩) e.v ⟨e.u, .fin e.w, i⟩

/-- Build the adjacency map of an undirected edge list starting at
edge id `i0`. -/
def mkAdjAux (adj : List (String × List AdjEntry)) (i0 : ℕ) : List UEdge →
    List (String × List AdjEntry)
  | [] => adj
  | e :: rest => mkAdjAux (pushUEdge adj i0 e) (i0 + 1) rest

/-- The adjacency map an undirected parse builds for the edge list
`E` (edge ids are positions). -/
def mkAdj (E : List UEdge) : List (String × List AdjEntry) :=
  mkAdjAux [] 0 E

/-- The weight of edge id `i` (`0` for an out-of-range id). -/
def wOf (E : List UEdge) (i : ℕ) : ℚ :=
  match E.get? i with
  | some e => e.w
  | none => 0

/-- Total weight of a list of edge ids. -/
def sumW (E : List UEdge) (ids : List ℕ) : ℚ :=
  (ids.map (wOf E)).sum

/-- Edge id `i` joins nodes `x` and `y` (in either orientation). -/
def touches (E : List UEdge) (i : ℕ) (x y : String) : Prop :=
  ∃ e, E.get? i = some e ∧ ((e.u = x ∧ e.v = y) ∨ (e.u = y ∧ e.v = x))

/-- One step along an edge whose id lies in the id set `S`. -/
def stepRel (E : List UEdge) (S : List ℕ) (x y : String) : Prop :=
  ∃ i ∈ S, touches E i x y

/-- Connectivity within the subgraph given by the id set `S`. -/
def Reach (E : List UEdge) (S : List ℕ) : String → String → Prop :=
  Relation.ReflTransGen (stepRel E S)

/-- A walk from `x` along `steps`, each step an (edge id, next node)
pair with the id drawn from `S`. -/
def IsWalk (E : List UEdge) (S : List ℕ) : String → List (ℕ × String) → Prop
  | _, [] => True
  | x, (i, y) :: rest => i ∈ S ∧ touches E i x y ∧ IsWalk E S y rest

/-- The final node of a walk. -/
def walkEnd (x : String) (steps : List (ℕ × String)) : String :=
  (steps.map Prod.snd).getLastD x

/-- A spanning tree of the graph `(nodes, E)`: a duplicate-free set of
valid edge ids, one fewer than the nodes, connecting all nodes. -/
def SpanningTree (E : List UEdge) (nodes : List String) (T : List ℕ) : Prop :=
  T.Nodup ∧ (∀ i ∈ T, i < E.length) ∧ T.length + 1 = nodes.length ∧
  ∀ x ∈ nodes, ∀ y ∈ nodes, Reach E T x y

/-- The whole graph is connected on its node list. -/
def ConnectedG (E : List UEdge) (nodes : List String) : Prop :=
  ∀ x ∈ nodes, ∀ y ∈ nodes, Reach E (List.range E.length) x y

/-- The adjacency entries stored under key `x` (`adjacency[x] ?? []`). -/
def entriesAt (adj : List (String × List AdjEntry)) (x : String) : List AdjEntry :=
  (assocGet adj x).getD []

/-- An adjacency entry under key `x` faithfully describes one edge of
`E`: right id, right weight, and `x` is one of its endpoints. -/
def SoundEnt (E : List UEdge) (x : String) (ent : AdjEntry) : Prop :=
  ∃ e, E.get? ent.edgeId = some e ∧ ent.weight = .fin e.w ∧
    ((e.u = x ∧ e.v = ent.toId) ∨ (e.v = x ∧ e.u = ent.toId))

/-- Weight comparison of two candidates through their (finite) weights. -/
def wle (a b : Cand) : Prop :=
  ∀ qa qb, a.weight = .fin qa → b.weight = .fin qb → qa ≤ qb

/-- The loop invariant of `primLoop` over the graph `(nodes, E)`:
the visited set is a duplicate-free subset of the nodes containing the
start, the chosen edge ids form a tree on the visited set with the
recorded total weight, the candidate list is sound and contains every
edge leaving the visited set, and the chosen ids extend to a spanning
tree at most as heavy as any given one. -/
structure PInv (E : List UEdge) (nodes : List String) (start : String)
    (st : PrimState) : Prop where
  ndup : st.inMST.Nodup
  sub : ∀ x ∈ st.inMST, x ∈ nodes
  smem : start ∈ st.inMST
  conn : ∀ x ∈ st.inMST, Reach E st.chosen start x
  cnd : st.chosen.Nodup
  cval : ∀ i ∈ st.chosen, ∃ e, E.get? i = some e ∧ e.u ∈ st.inMST ∧ e.v ∈ st.inMST
  ccount : st.chosen.length + 1 = st.inMST.length
  tw : st.totalWeight = .fin (sumW E st.chosen)
  csound : ∀ cd ∈ st.cands, ∃ e, E.get? cd.edgeId = some e ∧ cd.weight = .fin e.w ∧
      cd.fromId ∈ st.inMST ∧
      ((e.u = cd.fromId ∧ e.v = cd.toId) ∨ (e.v = cd.fromId ∧ e.u = cd.toId))
  ccomp : ∀ i e a b, E.get? i = some e →
      ((a = e.u ∧ b = e.v) ∨ (a = e.v ∧ b = e.u)) →
      a ∈ st.inMST → b ∉ st.inMST →
      ∃ cd ∈ st.cands, cd.edgeId = i ∧ cd.toId = b ∧ cd.weight = .fin e.w
  mst : ∀ T, SpanningTree E nodes T →
      ∃ T2, SpanningTree E nodes T2 ∧ sumW E T2 ≤ sumW E T ∧
        ∀ i ∈ st.chosen, i ∈ T2

/-- The adjacency map of an undirected parse state is shaped by an
edge list mirroring its edges array (same positions and endpoints). -/
def AdjShape (st : PState) : Prop :=
  ∃ E2 : List UEdge, st.adjacency = mkAdj E2 ∧ E2.length = st.edgeIdCounter ∧
    E2.length = st.edgesArr.length ∧
    ∀ k e2, E2.get? k = some e2 → ∃ ed, st.edgesArr.get? k = some ed ∧
      ed.fromId = e2.u ∧ ed.toId = e2.v

/-! ## Supporting lemmas -/

/-- The parser-state invariant behind C8 and C9: edge ids are dense in
creation order, the id counter equals the edge count, and every
adjacency entry carries a finite weight. -/
def PStateInv (st : PState) : Prop :=
  st.edgesArr.map Edge.id = List.range st.edgesArr.length ∧
  st.edgeIdCounter = st.edgesArr.length ∧
  ∀ p ∈ st.adjacency, ∀ e ∈ p.2, ∃ q : ℚ, e.weight = JsNum.fin q

theorem pStateInv_init : PStateInv PState.init := by
  refine ⟨rfl, rfl, ?_⟩
  intro p hp
  exact absurd hp (by simp [PState.init])

/-- Every adjacency entry after an `adjPush` is an old entry or the
pushed one. -/
theorem mem_adjPush (m : List (String × List AdjEntry)) (k : String) (e : AdjEntry) :
    ∀ p ∈ adjPush m k e, ∀ x ∈ p.2, (∃ p' ∈ m, x ∈ p'.2) ∨ x = e := by
  induction m with
  | nil =>
    intro p hp x hx
    simp only [adjPush, List.mem_singleton] at hp
    subst hp
    simp only [List.mem_singleton] at hx
    exact Or.inr hx
  | cons head tail ih =>
    intro p hp x hx
    obtain ⟨k', l⟩ := head
    simp only [adjPush] at hp
    split_ifs at hp with hk
    · rcases List.mem_cons.mp hp with h | h
      · subst h
        rcases List.mem_append.mp hx with h | h
        · exact Or.inl ⟨(k', l), List.mem_cons_self _ _, h⟩
        · exact Or.inr (List.mem_singleton.mp h)
      · exact Or.inl ⟨p, List.mem_cons_of_mem _ h, hx⟩
    · rcases List.mem_cons.mp hp with h | h
      · subst h
        exact Or.inl ⟨(k', l), List.mem_cons_self _ _, hx⟩
      · rcases ih p h x hx with ⟨p', hp', hx'⟩ | h'
        · exact Or.inl ⟨p', List.mem_cons_of_mem _ hp', hx'⟩
        · exact Or.inr h'

/-- A finite JS number is a `fin`. -/
theorem isFinite_eq_fin (x : JsNum) (h : x.isFinite = true) : ∃ q : ℚ, x = JsNum.fin q := by
  cases x with
  | fin q => exact ⟨q, rfl⟩
  | nan => exact absurd h (by simp [JsNum.isFinite])
  | pinf => exact absurd h (by simp [JsNum.isFinite])
  | ninf => exact absurd h (by simp [JsNum.isFinite])

/-- The weight `addEdge` stores into the adjacency lists is always a
finite number. -/
theorem addEdge_stored_weight_fin (weighted : Bool) (w : WParam) :
    ∃ q : ℚ,
      (if weighted then
          some (if (WParam.toNumber w).isFinite then WParam.toNumber w else JsNum.fin 1)
        else if (WParam.toNumber w).isFinite then some (WParam.toNumber w)
        else none).getD (JsNum.fin 1) = JsNum.fin q := by
  split_ifs with h1 h2 h3
  · simp only [Option.getD_some]
    exact isFinite_eq_fin _ h2
  · exact ⟨1, by simp⟩
  · simp only [Option.getD_some]
    exact isFinite_eq_fin _ h3
  · exact ⟨1, by simp⟩

/-- `addEdge` preserves the parser-state invariant. -/
theorem addEdge_inv (weighted directed : Bool) (st : PState) (u v : String)
    (w : WParam) (h : PStateInv st) :
    PStateInv (addEdge weighted directed st u v w) := by
  obtain ⟨hid, hcnt, hadj⟩ := h
  obtain ⟨qs, hqs⟩ := addEdge_stored_weight_fin weighted w
  refine ⟨?_, ?_, ?_⟩
  · simp only [addEdge, List.map_append, List.length_append, List.map_cons, List.map_nil,
      List.length_cons, List.length_nil, hid, hcnt, List.range_succ]
  · simp [addEdge, hcnt]
  · intro p hp x hx
    simp only [addEdge] at hp
    by_cases hdir : directed = true
    · rw [if_neg (by simp [hdir])] at hp
      rcases mem_adjPush _ _ _ p hp x hx with ⟨p', hp', hx'⟩ | hx'
      · exact hadj p' hp' x hx'
      · subst hx'
        exact ⟨qs, hqs⟩
    · rw [if_pos (by simp [hdir])] at hp
      rcases mem_adjPush _ _ _ p hp x hx with ⟨p', hp', hx'⟩ | hx'
      · rcases mem_adjPush _ _ _ p' hp' x hx' with ⟨p'', hp'', hx''⟩ | hx''
        · exact hadj p'' hp'' x hx''
        · subst hx''
          exact ⟨qs, hqs⟩
      · subst hx'
        exact ⟨qs, hqs⟩

/-- A fold over any step function that preserves the invariant
preserves it. -/
theorem foldl_pStateInv {α : Type} (f : PState → α → PState)
    (hf : ∀ st x, PStateInv st → PStateInv (f st x)) :
    ∀ (l : List α) (st : PState), PStateInv st → PStateInv (l.foldl f st) := by
  intro l
  induction l with
  | nil => intro st h; exact h
  | cons a l ih => intro st h; exact ih (f st a) (hf st a h)

/-- Each plain-text neighbor token preserves the invariant. -/
theorem plainNeighborTok_inv (weighted directed : Bool) (fromN : String)
    (st : PState) (tok : String) (h : PStateInv st) :
    PStateInv (plainNeighborTok weighted directed fromN st tok) := by
  unfold plainNeighborTok
  split_ifs with h1 h2
  · exact h
  · exact addEdge_inv _ _ _ _ _ _ h
  · exact addEdge_inv _ _ _ _ _ _ h

/-- Each plain-text line preserves the invariant. -/
theorem plainLine_inv (weighted directed : Bool) (st : PState) (line : String)
    (h : PStateInv st) : PStateInv (plainLine weighted directed st line) := by
  unfold plainLine
  split_ifs with h1
  · apply foldl_pStateInv _ (plainNeighborTok_inv weighted directed _)
    exact ⟨h.1, h.2.1, h.2.2⟩
  · simp only []
    split_ifs with h2
    · exact h
    · exact addEdge_inv _ _ _ _ _ _ h

/-- The plain-text mode establishes the invariant. -/
theorem parsePlainMode_inv (weighted directed : Bool) (rawText : String) :
    PStateInv (parsePlainMode weighted directed rawText) :=
  foldl_pStateInv _ (fun st line => plainLine_inv weighted directed st line) _ _
    pStateInv_init

/-- The array-mode classification tail establishes the invariant on
success. -/
theorem parseArrayClassify_inv (weighted directed : Bool) (rawText : String)
    (parsed : Option Json) (st : PState)
    (h : parseArrayClassify weighted directed rawText parsed = .ok st) :
    PStateInv st := by
  unfold parseArrayClassify at h
  revert h
  split
  · intro h
    exact absurd h (by simp)
  · rename_i p0
    split_ifs with htr
    · intro h
      simp only [] at h
      revert h
      split
      · intro h
        exact absurd h (by simp)
      · rename_i p heq
        split
        · rename_i elems
          split_ifs with h1 h2
          · intro h
            rw [← Except.ok.inj h]
            apply foldl_pStateInv _ _ _ _ pStateInv_init
            intro st' entry hinv
            split
            · exact addEdge_inv _ _ _ _ _ _ hinv
            · exact hinv
          · intro h
            rw [← Except.ok.inj h]
            apply foldl_pStateInv _ _ _ _ pStateInv_init
            intro st' i hinv
            split
            · apply foldl_pStateInv _ _ _ _ hinv
              intro st'' vRaw hinv'
              exact addEdge_inv _ _ _ _ _ _ hinv'
            · exact hinv
          · intro h
            exact absurd h (by simp)
        · intro h
          exact absurd h (by simp)
    · intro h
      exact absurd h (by simp)

/-- The array mode establishes the invariant on success. -/
theorem parseArrayMode_inv (weighted directed : Bool) (rawText : String)
    (st : PState) (h : parseArrayMode weighted directed rawText = .ok st) :
    PStateInv st :=
  parseArrayClassify_inv weighted directed rawText _ st h

/-- Any result of `dijkstraFinish` with a non-finite distance is the
empty result. -/
theorem dijkstraFinish_not_finite (ek : List (String × ℕ)) (dir : Bool)
    (t : String) (fuel : ℕ) (st : DState) (r : DijkstraResult)
    (h : dijkstraFinish ek dir t fuel st = some r)
    (hfin : r.distance.isFinite = false) : r = emptyResult := by
  unfold dijkstraFinish at h
  simp only [] at h
  split_ifs at h with hfinT
  · exfalso
    revert h
    split
    · intro h
      exact absurd h (by simp)
    · intro h
      have hr := Option.some.inj h
      revert hfinT
      split
      · rename_i dt hdt
        intro hfinT
        rw [← hr] at hfin
        simp only [hdt, Option.getD_some] at hfin
        rw [hfin] at hfinT
        exact Bool.false_ne_true hfinT
      · intro hfinT
        exact Bool.false_ne_true hfinT
  · exact (Option.some.inj h).symm

/-- Any successful parse establishes both output invariants: dense
edge ids and finite adjacency weights. -/
theorem parseGraphInput_inv (rawText : String) (options : ParseOptions) (m : Model)
    (h : parseGraphInput rawText options = .ok m) :
    m.edgesArr.map Edge.id = List.range m.edgesArr.length ∧
    ∀ p ∈ m.adjacency, ∀ e ∈ p.2, ∃ q : ℚ, e.weight = JsNum.fin q := by
  unfold parseGraphInput at h
  simp only [] at h
  by_cases harr : (if options.inputMode = "" then "plain" else options.inputMode) = "array"
  · rw [if_pos harr] at h
    rcases hpm : parseArrayMode options.weighted options.directed rawText with e | st
    · rw [hpm] at h
      exact absurd h (by simp [Except.map])
    · rw [hpm] at h
      simp only [Except.map] at h
      have hinv := parseArrayMode_inv _ _ _ _ hpm
      rw [← Except.ok.inj h]
      exact ⟨hinv.1, hinv.2.2⟩
  · rw [if_neg harr] at h
    simp only [Except.map] at h
    have hinv := parsePlainMode_inv options.weighted options.directed rawText
    rw [← Except.ok.inj h]
    exact ⟨hinv.1, hinv.2.2⟩

/-! ### Trimming lemmas (C5) -/

theorem dropWhile_eq_self_of_head (p : Char → Bool) (l : List Char)
    (h : ∀ c, l.head? = some c → p c = false) : l.dropWhile p = l := by
  cases l with
  | nil => rfl
  | cons c rest =>
    rw [List.dropWhile_cons, h c rfl]
    simp

theorem head_not_of_dropWhile (p : Char → Bool) (l : List Char) (c : Char)
    (h : (l.dropWhile p).head? = some c) : p c = false := by
  induction l with
  | nil => simp at h
  | cons a rest ih =>
    rw [List.dropWhile_cons] at h
    by_cases hp : p a = true
    · rw [if_pos hp] at h
      exact ih h
    · rw [if_neg hp] at h
      simp only [List.head?_cons, Option.some.injEq] at h
      subst h
      exact Bool.eq_false_iff.mpr hp

theorem head_not_of_dropWhile_self (p : Char → Bool) (l : List Char) (x : Char)
    (hself : l.dropWhile p = l) (hx : l.head? = some x) : p x = false := by
  cases l with
  | nil => simp at hx
  | cons a r =>
    simp only [List.head?_cons, Option.some.injEq] at hx
    subst hx
    by_cases hp : p a = true
    · rw [List.dropWhile_cons, if_pos hp] at hself
      have hlen := congrArg List.length hself
      have hle := (List.dropWhile_sublist (l := r) p).length_le
      simp only [List.length_cons] at hlen
      omega
    · exact Bool.eq_false_iff.mpr hp

theorem jsTrim_eq_self (l : List Char) (h : TrimmedL l) : jsTrim ⟨l⟩ = ⟨l⟩ := by
  unfold jsTrim
  show String.mk (((l.dropWhile jsWhitespace).reverse.dropWhile jsWhitespace).reverse) = ⟨l⟩
  rw [h.1, h.2, List.reverse_reverse]

theorem trimmedL_jsTrim (s : String) : TrimmedL (jsTrim s).data := by
  show TrimmedL (((s.data.dropWhile jsWhitespace).reverse.dropWhile jsWhitespace).reverse)
  constructor
  · apply dropWhile_eq_self_of_head
    intro c hc
    rw [List.head?_reverse] at hc
    set a := s.data.dropWhile jsWhitespace with ha
    set b := a.reverse.dropWhile jsWhitespace with hb
    have hsplit : a.reverse.takeWhile jsWhitespace ++ b = a.reverse := by
      rw [hb]
      exact List.takeWhile_append_dropWhile _ _
    have hbne : b ≠ [] := by
      intro hnil
      rw [hnil] at hc
      simp at hc
    have hlast : a.reverse.getLast? = some c := by
      rw [← hsplit]
      rw [List.getLast?_append_of_ne_nil _ hbne]
      exact hc
    rw [List.getLast?_reverse] at hlast
    exact head_not_of_dropWhile _ _ _ hlast
  · rw [List.reverse_reverse]
    apply dropWhile_eq_self_of_head
    intro c hc
    exact head_not_of_dropWhile _ _ _ hc

theorem jsTrim_idem (s : String) : jsTrim (jsTrim s) = jsTrim s :=
  jsTrim_eq_self (jsTrim s).data (trimmedL_jsTrim s)

theorem trimmedL_tail (c : Char) (u : List Char) (h : TrimmedL (c :: u))
    (hu : ∀ d, u.head? = some d → jsWhitespace d = false) : TrimmedL u := by
  constructor
  · exact dropWhile_eq_self_of_head _ _ hu
  · apply dropWhile_eq_self_of_head
    intro d hd
    have h2 := h.2
    rw [List.reverse_cons] at h2
    apply head_not_of_dropWhile_self jsWhitespace (u.reverse ++ [c]) d h2
    cases hru : u.reverse with
    | nil =>
      rw [hru] at hd
      simp at hd
    | cons x xs =>
      rw [hru] at hd
      rw [List.cons_append, List.head?_cons]
      rw [List.head?_cons] at hd
      exact hd

/-! ### Numeric-literal lemmas (C5) -/

theorem parseDecBody_none_of_head (c : Char) (rest : List Char)
    (hd : ¬ c.isDigit = true) (hdot : c ≠ '.') : parseDecBody (c :: rest) = none := by
  unfold parseDecBody
  simp only [List.takeWhile_cons, List.dropWhile_cons, if_neg hd]
  split
  · rename_i r2 heq
    exact absurd (List.cons.inj heq).1 hdot
  · simp

theorem parseExpTail_none (c : Char) (rest : List Char) (he : c ≠ 'e') (hE : c ≠ 'E') :
    parseExpTail (c :: rest) = none := by
  simp only [parseExpTail]
  rw [if_neg (by simp [he, hE])]

theorem parseDecBody_letter (c : Char) (rest : List Char)
    (hd : ¬ c.isDigit = true) (hdot : c ≠ '.') (he : c ≠ 'e') (hE : c ≠ 'E') :
    parseDecBody ('0' :: c :: rest) = none := by
  unfold parseDecBody
  simp only [List.takeWhile_cons, List.dropWhile_cons,
    show ('0').isDigit = true from rfl, if_true, if_neg hd,
    parseExpTail_none c rest he hE]
  split
  · rename_i r2 heq
    exact absurd (List.cons.inj heq).1 hdot
  · simp

theorem ne_infinity_of_head_zero (c : Char) (rest : List Char) :
    ('0' :: c :: rest) ≠ "Infinity".data := by
  intro heq
  have hh := congrArg List.head? heq
  rw [show ("Infinity".data) = 'I' :: "nfinity".data from rfl] at hh
  simp only [List.head?_cons, Option.some.injEq] at hh
  exact absurd hh (by decide)

theorem decBody_head (u : List Char) (r : ℚ) (h : jsStrUnsignedDec u = .fin r) :
    ∃ c rest, u = c :: rest ∧ (c.isDigit = true ∨ c = '.') := by
  cases u with
  | nil =>
    rw [show jsStrUnsignedDec [] = .nan from rfl] at h
    exact absurd h (by simp)
  | cons c rest =>
    refine ⟨c, rest, rfl, ?_⟩
    by_cases hdig : c.isDigit = true
    · exact Or.inl hdig
    · by_cases hdot : c = '.'
      · exact Or.inr hdot
      · exfalso
        unfold jsStrUnsignedDec at h
        split_ifs at h with hinf
        · rw [parseDecBody_none_of_head c rest hdig hdot] at h
          exact JsNum.noConfusion (show JsNum.nan = JsNum.fin r from h)

/-- On inputs where the plain decimal parse succeeds, the radix-prefix
dispatch of `jsStrUnsigned` never fires, so the two agree. -/
theorem decBody_eq_unsigned (u : List Char) (r : ℚ) (h : jsStrUnsignedDec u = .fin r) :
    jsStrUnsigned u = .fin r := by
  have hnan : ∀ (c1 : Char) (rest1 : List Char),
      (¬ c1.isDigit = true) → c1 ≠ '.' → c1 ≠ 'e' → c1 ≠ 'E' →
      jsStrUnsignedDec ('0' :: c1 :: rest1) = .nan := by
    intro c1 rest1 hd hdot he hE
    unfold jsStrUnsignedDec
    rw [if_neg (ne_infinity_of_head_zero c1 rest1)]
    rw [parseDecBody_letter c1 rest1 hd hdot he hE]
  cases u with
  | nil =>
    unfold jsStrUnsigned
    split
    · rename_i c rest heq
      exact absurd heq (by simp)
    · exact h
  | cons c0 rest0 =>
    cases rest0 with
    | nil =>
      unfold jsStrUnsigned
      split
      · rename_i c rest heq
        exact absurd heq (by simp)
      · exact h
    | cons c1 rest1 =>
      by_cases h0 : c0 = '0'
      · subst h0
        by_cases hx : c1 = 'x' ∨ c1 = 'X'
        · exfalso
          rw [hnan c1 rest1 (by rcases hx with h' | h' <;> simp [h'])
            (by rcases hx with h' | h' <;> simp [h'])
            (by rcases hx with h' | h' <;> simp [h'])
            (by rcases hx with h' | h' <;> simp [h'])] at h
          exact JsNum.noConfusion h
        · by_cases hb : c1 = 'b' ∨ c1 = 'B'
          · exfalso
            rw [hnan c1 rest1 (by rcases hb with h' | h' <;> simp [h'])
              (by rcases hb with h' | h' <;> simp [h'])
              (by rcases hb with h' | h' <;> simp [h'])
              (by rcases hb with h' | h' <;> simp [h'])] at h
            exact JsNum.noConfusion h
          · by_cases ho : c1 = 'o' ∨ c1 = 'O'
            · exfalso
              rw [hnan c1 rest1 (by rcases ho with h' | h' <;> simp [h'])
                (by rcases ho with h' | h' <;> simp [h'])
                (by rcases ho with h' | h' <;> simp [h'])
                (by rcases ho with h' | h' <;> simp [h'])] at h
              exact JsNum.noConfusion h
            · show (if c1 = 'x' ∨ c1 = 'X' then
                  if rest1 ≠ [] ∧ rest1.all (isRadixDigit 16) then
                    JsNum.fin (digitsVal 16 rest1) else .nan
                else if c1 = 'b' ∨ c1 = 'B' then
                  if rest1 ≠ [] ∧ rest1.all (isRadixDigit 2) then
                    JsNum.fin (digitsVal 2 rest1) else .nan
                else if c1 = 'o' ∨ c1 = 'O' then
                  if rest1 ≠ [] ∧ rest1.all (isRadixDigit 8) then
                    JsNum.fin (digitsVal 8 rest1) else .nan
                else jsStrUnsignedDec ('0' :: c1 :: rest1)) = .fin r
              rw [if_neg hx, if_neg hb, if_neg ho]
              exact h
      · unfold jsStrUnsigned
        split
        · rename_i c rest heq
          exact absurd (List.cons.inj heq).1 h0
        · exact h

/-- `Math.trunc` of an integer-valued rational. -/
theorem trunc_intCast (n : ℤ) : JsNum.trunc ((n : ℤ) : ℚ) = n := by
  unfold JsNum.trunc
  split_ifs with hneg
  · exact_mod_cast Int.ceil_intCast n
  · exact_mod_cast Int.floor_intCast n

theorem regexHex_shape (l : List Char) (h : toNumberIfPossible.regexHex l = true) :
    ∃ c rest, l = '0' :: c :: rest ∧ (c = 'x' ∨ c = 'X') := by
  unfold toNumberIfPossible.regexHex at h
  split at h
  · rename_i c rest
    refine ⟨c, rest, rfl, ?_⟩
    simp only [Bool.decide_and, Bool.and_eq_true, decide_eq_true_eq] at h
    exact h.1
  · exact Bool.noConfusion h

theorem regexBin_shape (l : List Char) (h : toNumberIfPossible.regexBin l = true) :
    ∃ c rest, l = '0' :: c :: rest ∧ (c = 'b' ∨ c = 'B') := by
  unfold toNumberIfPossible.regexBin at h
  split at h
  · rename_i c rest
    refine ⟨c, rest, rfl, ?_⟩
    simp only [Bool.decide_and, Bool.and_eq_true, decide_eq_true_eq] at h
    exact h.1
  · exact Bool.noConfusion h

/-- A token matching the hex regex never parses as a plain decimal. -/
theorem regexHex_dec_nan (u : List Char) (h : toNumberIfPossible.regexHex u = true) :
    jsStrUnsignedDec u = .nan := by
  obtain ⟨c, rest, hu, hc⟩ := regexHex_shape u h
  subst hu
  unfold jsStrUnsignedDec
  rw [if_neg (ne_infinity_of_head_zero c rest)]
  rw [parseDecBody_letter c rest (by rcases hc with h' | h' <;> (subst h'; decide))
    (by rcases hc with h' | h' <;> (subst h'; decide))
    (by rcases hc with h' | h' <;> (subst h'; decide))
    (by rcases hc with h' | h' <;> (subst h'; decide))]

/-- A token matching the binary regex never parses as a plain decimal. -/
theorem regexBin_dec_nan (u : List Char) (h : toNumberIfPossible.regexBin u = true) :
    jsStrUnsignedDec u = .nan := by
  obtain ⟨c, rest, hu, hc⟩ := regexBin_shape u h
  subst hu
  unfold jsStrUnsignedDec
  rw [if_neg (ne_infinity_of_head_zero c rest)]
  rw [parseDecBody_letter c rest (by rcases hc with h' | h' <;> (subst h'; decide))
    (by rcases hc with h' | h' <;> (subst h'; decide))
    (by rcases hc with h' | h' <;> (subst h'; decide))
    (by rcases hc with h' | h' <;> (subst h'; decide))]

theorem digit_dot_not_ws (c : Char) (h : c.isDigit = true ∨ c = '.') :
    jsWhitespace c = false := by
  rcases h with h | h
  · by_contra hws
    simp only [Bool.not_eq_false] at hws
    simp only [jsWhitespace, decide_eq_true_eq] at hws
    rcases hws with h' | h' | h' | h' | h' | h' <;> (subst h'; exact absurd h (by decide))
  · subst h
    decide

/-- `Number(...)` on a trimmed string whose first character is a digit
or a dot evaluates through `jsStrUnsigned`. -/
theorem jsNumber_of_plain (u : List Char) (r : ℚ)
    (htr : TrimmedL u) (hdec : jsStrUnsignedDec u = .fin r) :
    jsNumber ⟨u⟩ = .fin r := by
  obtain ⟨c, rest, hu, hc⟩ := decBody_head u r hdec
  unfold jsNumber
  rw [jsTrim_eq_self u htr]
  subst hu
  split
  · rename_i heq
    exact absurd heq (by simp)
  · rename_i rest' heq
    exfalso
    have hc' := (List.cons.inj heq).1
    rcases hc with hd | hd <;> (rw [hc'] at hd; exact absurd hd (by decide))
  · rename_i rest' heq
    exfalso
    have hc' := (List.cons.inj heq).1
    rcases hc with hd | hd <;> (rw [hc'] at hd; exact absurd hd (by decide))
  · exact decBody_eq_unsigned _ _ hdec

/-- The normalizer on a token whose trimmed form matches the hex
regex. -/
theorem parseSingle_hex (s : String) (n : ℤ) (hemp : ¬ jsTrim s = "")
    (hhex : toNumberIfPossible.regexHex (jsTrim s).data = true)
    (hp : jsParseInt (jsTrim s) 16 = .fin ((n : ℤ) : ℚ)) :
    parseSingleNumberToken s = some n := by
  obtain ⟨c, rest, htd, hc⟩ := regexHex_shape _ hhex
  have heta : (⟨'0' :: c :: rest⟩ : String) = jsTrim s := by rw [← htd]
  have hhex' : toNumberIfPossible.regexHex ('0' :: c :: rest) = true := htd ▸ hhex
  simp only [parseSingleNumberToken, htd, List.head?_cons, if_neg hemp, List.tail_cons,
    Option.some.injEq]
  simp [heta, hhex', hp, Rat.num_intCast]

/-- The normalizer on a token whose trimmed form matches the binary
regex. -/
theorem parseSingle_bin (s : String) (n : ℤ) (hemp : ¬ jsTrim s = "")
    (hhex : toNumberIfPossible.regexHex (jsTrim s).data = false)
    (hbin : toNumberIfPossible.regexBin (jsTrim s).data = true)
    (hp : jsParseInt (jsTrim s) 2 = .fin ((n : ℤ) : ℚ)) :
    parseSingleNumberToken s = some n := by
  obtain ⟨c, rest, htd, hc⟩ := regexBin_shape _ hbin
  have heta : (⟨'0' :: c :: rest⟩ : String) = jsTrim s := by rw [← htd]
  have hhex' : toNumberIfPossible.regexHex ('0' :: c :: rest) = false := htd ▸ hhex
  have hbin' : toNumberIfPossible.regexBin ('0' :: c :: rest) = true := htd ▸ hbin
  simp only [parseSingleNumberToken, htd, List.head?_cons, if_neg hemp, List.tail_cons,
    Option.some.injEq]
  simp [heta, hhex', hbin', hp, Rat.num_intCast]

/-- The normalizer on a token that goes down the `Number(...)` path in
the parser coercion. -/
theorem parseSingle_number (s : String) (n : ℤ) (hemp : ¬ jsTrim s = "")
    (hhex : toNumberIfPossible.regexHex (jsTrim s).data = false)
    (hbin : toNumberIfPossible.regexBin (jsTrim s).data = false)
    (hnum : jsNumber (jsTrim s) = .fin ((n : ℤ) : ℚ)) :
    parseSingleNumberToken s = some n := by
  rcases htd : (jsTrim s).data with _ | ⟨c, u⟩
  · exact absurd (String.ext htd) hemp
  · have htrim := trimmedL_jsTrim s
    rw [htd] at htrim
    have hjs : jsNumber ⟨c :: u⟩ = .fin ((n : ℤ) : ℚ) := by
      rw [show (⟨c :: u⟩ : String) = jsTrim s from by rw [← htd]]
      exact hnum
    unfold jsNumber at hjs
    rw [jsTrim_eq_self (c :: u) htrim] at hjs
    by_cases hminus : c = '-'
    · subst hminus
      have hjs2 : (jsStrUnsignedDec u).neg = JsNum.fin ((n : ℤ) : ℚ) := hjs
      rcases hdec : jsStrUnsignedDec u with r | _ | _ | _ <;> rw [hdec] at hjs2
      case pos.nan => exact absurd hjs2 (by simp [JsNum.neg])
      case pos.pinf => exact absurd hjs2 (by simp [JsNum.neg])
      case pos.ninf => exact absurd hjs2 (by simp [JsNum.neg])
      case pos.fin =>
        simp only [JsNum.neg, JsNum.fin.injEq] at hjs2
        have hr : r = ((-n : ℤ) : ℚ) := by
          push_cast
          linarith [hjs2]
        -- the normalizer takes the sign branch
        obtain ⟨c', u', hu, hcd⟩ := decBody_head u r hdec
        have hu_tr : TrimmedL u := by
          apply trimmedL_tail '-' u htrim
          intro d hd
          rw [hu] at hd
          simp only [List.head?_cons, Option.some.injEq] at hd
          subst hd
          exact digit_dot_not_ws _ hcd
        have hkillx : toNumberIfPossible.regexHex u = false := by
          by_contra hx
          simp only [Bool.not_eq_false] at hx
          rw [regexHex_dec_nan u hx] at hdec
          exact JsNum.noConfusion hdec
        have hkillb : toNumberIfPossible.regexBin u = false := by
          by_contra hx
          simp only [Bool.not_eq_false] at hx
          rw [regexBin_dec_nan u hx] at hdec
          exact JsNum.noConfusion hdec
        have hjsu : jsNumber ⟨u⟩ = .fin ((-n : ℤ) : ℚ) := by
          rw [← hr]
          exact jsNumber_of_plain u r hu_tr hdec
        simp only [parseSingleNumberToken, htd, List.head?_cons, if_neg hemp,
          List.tail_cons]
        simp [hkillx, hkillb, hjsu, trunc_intCast]
        have hcast : -((n : ℤ) : ℚ) = ((-n : ℤ) : ℚ) := by push_cast; ring
        rw [hcast, trunc_intCast]
        omega
    · by_cases hplus : c = '+'
      · subst hplus
        -- hjs : jsStrUnsignedDec u = fin n
        have hdec : jsStrUnsignedDec u = .fin ((n : ℤ) : ℚ) := hjs
        obtain ⟨c', u', hu, hcd⟩ := decBody_head u _ hdec
        have hu_tr : TrimmedL u := by
          apply trimmedL_tail '+' u htrim
          intro d hd
          rw [hu] at hd
          simp only [List.head?_cons, Option.some.injEq] at hd
          subst hd
          exact digit_dot_not_ws _ hcd
        have hkillx : toNumberIfPossible.regexHex u = false := by
          by_contra hx
          simp only [Bool.not_eq_false] at hx
          rw [regexHex_dec_nan u hx] at hdec
          exact JsNum.noConfusion hdec
        have hkillb : toNumberIfPossible.regexBin u = false := by
          by_contra hx
          simp only [Bool.not_eq_false] at hx
          rw [regexBin_dec_nan u hx] at hdec
          exact JsNum.noConfusion hdec
        have hjsu : jsNumber ⟨u⟩ = .fin ((n : ℤ) : ℚ) :=
          jsNumber_of_plain u _ hu_tr hdec
        simp only [parseSingleNumberToken, htd, List.head?_cons, if_neg hemp,
          List.tail_cons]
        simp [hkillx, hkillb, hjsu, trunc_intCast]
      · -- no sign: the branch uses the whole trimmed token
        have hkx : toNumberIfPossible.regexHex (c :: u) = false := htd ▸ hhex
        have hkb : toNumberIfPossible.regexBin (c :: u) = false := htd ▸ hbin
        have hjsu : jsNumber ⟨c :: u⟩ = .fin ((n : ℤ) : ℚ) := by
          rw [show (⟨c :: u⟩ : String) = jsTrim s from by rw [← htd]]
          exact hnum
        simp only [parseSingleNumberToken, htd, List.head?_cons, if_neg hemp]
        simp [hminus, hplus, hkx, hkb, hjsu, trunc_intCast]

/-! ## Claims -/

/-- C8: for every input text and configuration on which the parser
succeeds, the edge ids stored in the returned edges array are exactly
`0, 1, ..., edges.length - 1` in creation order (unique and dense), so
the array's length equals the number of edges added. -/
theorem claim_C8_edge_ids_dense (rawText : String) (options : ParseOptions)
    (m : Model) (h : parseGraphInput rawText options = .ok m) :
    m.edgesArr.map Edge.id = List.range m.edgesArr.length :=
  (parseGraphInput_inv rawText options m h).1

/-- C9: for every input text and configuration on which the parser
succeeds, every adjacency entry in the returned model carries a finite
numeric weight (never `NaN`, an infinity, or `undefined`), so the
`NaN`-propagation behavior of the shortest-path engine cannot be
triggered by a parser-produced model. -/
theorem claim_C9_finite_weights (rawText : String) (options : ParseOptions)
    (m : Model) (h : parseGraphInput rawText options = .ok m) :
    ∀ p ∈ m.adjacency, ∀ e ∈ p.2, ∃ q : ℚ, e.weight = JsNum.fin q :=
  (parseGraphInput_inv rawText options m h).2

/-- Witness for C8 at the concrete input `"A B"`. -/
theorem claim_C8_witness :
    parseGraphInput "A B" ⟨false, false, "plain"⟩ = .ok abModel ∧
    abModel.edgesArr.map Edge.id = List.range abModel.edgesArr.length :=
  ⟨by with_unfolding_all rfl,
   claim_C8_edge_ids_dense "A B" ⟨false, false, "plain"⟩ abModel
     (by with_unfolding_all rfl)⟩

/-- Witness for C9 at the concrete input `"A B"` and its first
adjacency entry. -/
theorem claim_C9_witness :
    parseGraphInput "A B" ⟨false, false, "plain"⟩ = .ok abModel ∧
    ("A", [(⟨"B", .fin 1, 0⟩ : AdjEntry)]) ∈ abModel.adjacency ∧
    (⟨"B", .fin 1, 0⟩ : AdjEntry) ∈ [(⟨"B", .fin 1, 0⟩ : AdjEntry)] ∧
    ∃ q : ℚ, JsNum.fin 1 = JsNum.fin q :=
  ⟨by with_unfolding_all rfl, by simp [abModel], by simp,
   claim_C9_finite_weights "A B" ⟨false, false, "plain"⟩ abModel
     (by with_unfolding_all rfl)
     ("A", [⟨"B", .fin 1, 0⟩]) (by simp [abModel]) ⟨"B", .fin 1, 0⟩ (by simp)⟩

/-- C1: parsing `"A B 4\nB C 1"` in plain-text mode with
`weighted = true`, `directed = false` yields a model whose node ids
are exactly `A, B, C` and whose edges array has exactly two edges, and
the shortest-path engine on that model from `A` to `C` (with the node
iterable the UI passes and ample fuel) returns path `[A, B, C]`,
distance `5`, edge ids `[0, 1]`. -/
theorem claim_C1_roundtrip :
    (parseGraphInput "A B 4\nB C 1" ⟨true, false, "plain"⟩).map (fun m =>
      (m.nodesArr.map Node.id, m.edgesArr.length,
        dijkstraPQ (some m.adjacency) m.edgeKeyToId m.isDirected "A" "C"
          (m.nodesArr.map Node.id) 50)) =
    .ok (["A", "B", "C"], 2, some ⟨.fin 5, ["A", "B", "C"], [0, 1]⟩) := by
  with_unfolding_all rfl

/-- C3 fails as stated: the array-mode input `[[0,1],[1,2],[2]]` is
classified as a positional adjacency list, and every listed neighbor
creates an edge, so the parser yields five edges (including the
self-loops `0->0`, `1->1`, `2->2`), not exactly the two edges `0->1`
and `1->2`. -/
theorem claim_C3_counterexample :
    (parseGraphInput "[[0,1],[1,2],[2]]" ⟨false, false, "array"⟩).map
      (fun m => m.edgesArr.length) ≠ .ok 2 := by
  have h5 : (parseGraphInput "[[0,1],[1,2],[2]]" ⟨false, false, "array"⟩).map
      (fun m => m.edgesArr.length) = .ok 5 := by with_unfolding_all rfl
  rw [h5]
  intro h
  injection h with h'
  exact absurd h' (by decide)

/-- C3 amended: the array-mode input `[[0,1],[1,2],[2]]` parses to
node set `{0, 1, 2}` and exactly the five edges `0->0`, `0->1`,
`1->1`, `1->2`, `2->2` (edge per listed neighbor, in order, with ids
`0..4`). -/
theorem claim_C3_amended :
    (parseGraphInput "[[0,1],[1,2],[2]]" ⟨false, false, "array"⟩).map (fun m =>
      (m.nodesArr.map Node.id, m.edgesArr.map fun e => (e.id, e.fromId, e.toId))) =
    .ok (["0", "1", "2"],
      [(0, "0", "0"), (1, "0", "1"), (2, "1", "1"), (3, "1", "2"), (4, "2", "2")]) := by
  with_unfolding_all rfl

/-- C4: the code violates the claim.  On the plain-text line
`"A B xyz"` with `weighted = true` the third field is unparsable, so
`toNumberIfPossible` yields `null`; the parser does not abort and the
edge is created — but `Number(null)` is `0`, which passes the
`Number.isFinite` test in `addEdge`, so the stored weight (and label)
is `0`, not the default `1` the claim (and the `: 1` fallback in the
code) intends. -/
theorem claim_C4_weight_zero :
    (parseGraphInput "A B xyz" ⟨true, false, "plain"⟩).map (fun m =>
      (m.edgesArr.map fun e => (e.id, e.fromId, e.toId, e.label), m.adjacency)) =
    .ok ([(0, "A", "B", some (.fin 0))],
      [("A", [⟨"B", .fin 0, 0⟩]), ("B", [⟨"A", .fin 0, 0⟩])]) := by
  with_unfolding_all rfl

/-- C5 fails as stated: on the token `"-0x10"` the parser coercion
fails (its hex regex does not allow a leading sign, and
`Number("-0x10")` is `NaN`, since a signed string numeric literal must
be decimal), while the calculator normalizer strips the sign before
matching the hex regex and returns `-16`.  So it is not true that the
two either return the same integer or both fail. -/
theorem claim_C5_counterexample :
    ¬ ((toNumberIfPossible (.str "-0x10") = none ∧
          parseSingleNumberToken "-0x10" = none) ∨
       ∃ n : ℤ, toNumberIfPossible (.str "-0x10") = some (.fin (n : ℚ)) ∧
         parseSingleNumberToken "-0x10" = some n) := by
  have h1 : toNumberIfPossible (.str "-0x10") = none := by with_unfolding_all rfl
  have h2 : parseSingleNumberToken "-0x10" = some (-16) := by with_unfolding_all rfl
  intro h
  rcases h with ⟨ha, hb⟩ | ⟨n, ha, hb⟩
  · rw [h2] at hb
    exact Option.noConfusion hb
  · rw [h1] at ha
    exact Option.noConfusion ha

/-- C5 amended: the calculator normalizer extends the parser coercion
on integer results: for every string token on which the parser
coercion (`toNumberIfPossible`) returns an integer-valued number, the
normalizer (`parseSingleNumberToken`) returns that same integer.  (The
converse fails: the normalizer also accepts signed hex/binary tokens
and truncates fractional decimals, where the coercion fails or returns
a non-integer.) -/
theorem claim_C5_amended (s : String) (n : ℤ)
    (h : toNumberIfPossible (.str s) = some (.fin ((n : ℤ) : ℚ))) :
    parseSingleNumberToken s = some n := by
  have h' : (if jsTrim s = "" then (none : Option JsNum)
      else if toNumberIfPossible.regexHex (jsTrim s).data = true then
        some (jsParseInt (jsTrim s) 16)
      else if toNumberIfPossible.regexBin (jsTrim s).data = true then
        some (jsParseInt (jsTrim s) 2)
      else
        match jsNumber (jsTrim s) with
        | .fin q => some (.fin q)
        | _ => none) = some (.fin ((n : ℤ) : ℚ)) := h
  by_cases hemp : jsTrim s = ""
  · rw [if_pos hemp] at h'
    exact Option.noConfusion h'
  · rw [if_neg hemp] at h'
    by_cases hhex : toNumberIfPossible.regexHex (jsTrim s).data = true
    · rw [if_pos hhex] at h'
      exact parseSingle_hex s n hemp hhex (Option.some.inj h')
    · rw [if_neg hhex] at h'
      by_cases hbin : toNumberIfPossible.regexBin (jsTrim s).data = true
      · rw [if_pos hbin] at h'
        exact parseSingle_bin s n hemp (Bool.eq_false_iff.mpr hhex) hbin
          (Option.some.inj h')
      · rw [if_neg hbin] at h'
        have hnum : jsNumber (jsTrim s) = .fin ((n : ℤ) : ℚ) := by
          revert h'
          split
          · rename_i q hq
            intro h'
            rw [hq]
            exact congrArg JsNum.fin (JsNum.fin.inj (Option.some.inj h'))
          · intro h'
            exact Option.noConfusion h'
        exact parseSingle_number s n hemp (Bool.eq_false_iff.mpr hhex)
          (Bool.eq_false_iff.mpr hbin) hnum

/-- Witness for the amended C5 at the token `"0x1A"`: the parser
coercion returns the integer `26` and so does the normalizer. -/
theorem claim_C5_witness :
    toNumberIfPossible (.str "0x1A") = some (.fin ((26 : ℤ) : ℚ)) ∧
    parseSingleNumberToken "0x1A" = some 26 :=
  ⟨by with_unfolding_all rfl,
   claim_C5_amended "0x1A" 26 (by with_unfolding_all rfl)⟩

/-- C6: the shortest-path engine returns a value for every input (its
embedding has no error outcome; `none` only models the JS loop running
out of fuel): (1) if the adjacency map is absent or either endpoint id
is empty it returns `{distance: Infinity, path: [], edgeIds: []}`
immediately, and (2) any returned result whose distance is not finite
is exactly that same empty-result value. -/
theorem claim_C6_guard_and_empty :
    (∀ (ek : List (String × ℕ)) (dir : Bool) (s t : String) (ns : List String)
        (fuel : ℕ) (adj : Option (List (String × List AdjEntry))),
        adj = none ∨ s = "" ∨ t = "" →
        dijkstraPQ adj ek dir s t ns fuel = some emptyResult) ∧
    (∀ (ek : List (String × ℕ)) (dir : Bool) (s t : String) (ns : List String)
        (fuel : ℕ) (adj : Option (List (String × List AdjEntry))) (r : DijkstraResult),
        dijkstraPQ adj ek dir s t ns fuel = some r →
        r.distance.isFinite = false → r = emptyResult) := by
  constructor
  · intro ek dir s t ns fuel adj h
    unfold dijkstraPQ
    rcases h with h | h | h <;> simp [h]
  · intro ek dir s t ns fuel adj r h hfin
    unfold dijkstraPQ at h
    split_ifs at h with hg
    · exact (Option.some.inj h).symm
    · simp only [] at h
      revert h
      split
      · intro h
        exact absurd h (by simp)
      · rename_i st hloop
        intro h
        exact dijkstraFinish_not_finite ek dir t fuel st r h hfin

/-- Witness for C6: the first part applied at a concrete absent
adjacency map, and the second part applied at a concrete run that
returns the empty result. -/
theorem claim_C6_witness :
    dijkstraPQ none [] false "A" "B" [] 5 = some emptyResult ∧
    emptyResult = emptyResult :=
  ⟨claim_C6_guard_and_empty.1 [] false "A" "B" [] 5 none (Or.inl rfl),
    claim_C6_guard_and_empty.2 [] false "A" "B" [] 5 none emptyResult
      (claim_C6_guard_and_empty.1 [] false "A" "B" [] 5 none (Or.inl rfl)) rfl⟩

/-- C10: in array mode the input `"[]"` (valid JSON, an empty array)
is classified neither as an edge list nor as an adjacency list (both
classifications require a nonempty array), so the parser throws the
`Unrecognized array structure...` error rather than returning an
empty model. -/
theorem claim_C10_empty_array_rejected :
    parseGraphInput "[]" ⟨false, false, "array"⟩ = .error unrecognizedMsg := by
  with_unfolding_all rfl

/-! ### Walks and reachability in undirected edge-list graphs (C2) -/

theorem touches_symm {E : List UEdge} {i : ℕ} {x y : String}
    (h : touches E i x y) : touches E i y x := by
  obtain ⟨e, he, hor⟩ := h
  exact ⟨e, he, hor.symm⟩

theorem stepRel_symm {E : List UEdge} {S : List ℕ} {x y : String}
    (h : stepRel E S x y) : stepRel E S y x := by
  obtain ⟨i, hi, ht⟩ := h
  exact ⟨i, hi, touches_symm ht⟩

theorem reach_symm {E : List UEdge} {S : List ℕ} {x y : String}
    (h : Reach E S x y) : Reach E S y x := by
  induction h with
  | refl => exact .refl
  | tail _ hbc ih => exact Relation.ReflTransGen.head (stepRel_symm hbc) ih

theorem reach_mono {E : List UEdge} {S S2 : List ℕ} (hs : ∀ i ∈ S, i ∈ S2)
    {x y : String} (h : Reach E S x y) : Reach E S2 x y := by
  induction h with
  | refl => exact .refl
  | tail _ hbc ih =>
      obtain ⟨i, hi, ht⟩ := hbc
      exact ih.tail ⟨i, hs i hi, ht⟩

theorem walkEnd_nil (x : String) : walkEnd x [] = x := rfl

theorem walkEnd_cons (x : String) (i : ℕ) (y : String) (l : List (ℕ × String)) :
    walkEnd x ((i, y) :: l) = walkEnd y l := by
  show (List.map Prod.snd ((i, y) :: l)).getLastD x = (List.map Prod.snd l).getLastD y
  rw [List.map_cons, List.getLastD_cons]

theorem walkEnd_append (x : String) (A B : List (ℕ × String)) :
    walkEnd x (A ++ B) = walkEnd (walkEnd x A) B := by
  induction A generalizing x with
  | nil => rfl
  | cons s A ih =>
      obtain ⟨i, y⟩ := s
      rw [List.cons_append, walkEnd_cons, walkEnd_cons, ih]

theorem isWalk_nil {E : List UEdge} {S : List ℕ} {x : String} : IsWalk E S x [] :=
  trivial

theorem isWalk_cons {E : List UEdge} {S : List ℕ} {x : String} {i : ℕ} {y : String}
    {rest : List (ℕ × String)} :
    IsWalk E S x ((i, y) :: rest) ↔ i ∈ S ∧ touches E i x y ∧ IsWalk E S y rest :=
  Iff.rfl

theorem isWalk_append {E : List UEdge} {S : List ℕ} {x : String}
    {A B : List (ℕ × String)} :
    IsWalk E S x (A ++ B) ↔ IsWalk E S x A ∧ IsWalk E S (walkEnd x A) B := by
  induction A generalizing x with
  | nil => simp [IsWalk, walkEnd_nil]
  | cons s A ih =>
      obtain ⟨i, y⟩ := s
      rw [List.cons_append, isWalk_cons, isWalk_cons, walkEnd_cons, ih]
      tauto

theorem isWalk_reach {E : List UEdge} {S : List ℕ} :
    ∀ {steps : List (ℕ × String)} {x : String},
    IsWalk E S x steps → Reach E S x (walkEnd x steps) := by
  intro steps
  induction steps with
  | nil => intro x _; exact .refl
  | cons s rest ih =>
      obtain ⟨i, y⟩ := s
      intro x hw
      obtain ⟨hi, ht, hrest⟩ := hw
      rw [walkEnd_cons]
      exact Relation.ReflTransGen.head ⟨i, hi, ht⟩ (ih hrest)

theorem reach_isWalk {E : List UEdge} {S : List ℕ} {x y : String}
    (h : Reach E S x y) :
    ∃ steps, IsWalk E S x steps ∧ walkEnd x steps = y := by
  induction h with
  | refl => exact ⟨[], trivial, rfl⟩
  | @tail b c _ hbc ih =>
      obtain ⟨steps, hw, he⟩ := ih
      obtain ⟨i, hi, ht⟩ := hbc
      refine ⟨steps ++ [(i, c)], ?_, ?_⟩
      · exact isWalk_append.mpr ⟨hw, hi, by rw [he]; exact ht, trivial⟩
      · rw [walkEnd_append, he, walkEnd_cons, walkEnd_nil]

theorem isWalk_mem {E : List UEdge} {S : List ℕ} :
    ∀ {steps : List (ℕ × String)} {x : String}, IsWalk E S x steps →
    ∀ s ∈ steps, s.1 ∈ S ∧ ∃ w, touches E s.1 w s.2 := by
  intro steps
  induction steps with
  | nil => intro x _ s hs; exact absurd hs (List.not_mem_nil s)
  | cons s0 rest ih =>
      obtain ⟨i, y⟩ := s0
      intro x hw s hs
      obtain ⟨hi, ht, hrest⟩ := hw
      rcases List.mem_cons.mp hs with hs | hs
      · subst hs; exact ⟨hi, x, ht⟩
      · exact ih hrest s hs

theorem isWalk_relabel {E : List UEdge} {S S2 : List ℕ} :
    ∀ {steps : List (ℕ × String)} {x : String}, IsWalk E S x steps →
    (∀ s ∈ steps, s.1 ∈ S2) → IsWalk E S2 x steps := by
  intro steps
  induction steps with
  | nil => intro x _ _; trivial
  | cons s0 rest ih =>
      obtain ⟨i, y⟩ := s0
      intro x hw hmem
      obtain ⟨_, ht, hrest⟩ := hw
      exact ⟨hmem (i, y) (List.mem_cons_self _ _), ht,
        ih hrest fun s hs => hmem s (List.mem_cons_of_mem _ hs)⟩

/-- Every walk shortens to a walk visiting no node twice, with the
same endpoints and visiting only nodes of the original walk. -/
theorem walk_simplify {E : List UEdge} {S : List ℕ} :
    ∀ n {steps : List (ℕ × String)} {x : String}, steps.length ≤ n →
    IsWalk E S x steps →
    ∃ steps2, IsWalk E S x steps2 ∧ walkEnd x steps2 = walkEnd x steps ∧
      (x :: steps2.map Prod.snd).Nodup ∧
      ∀ z ∈ steps2.map Prod.snd, z ∈ steps.map Prod.snd := by
  intro n
  induction n with
  | zero =>
      intro steps x hlen _
      rw [Nat.le_zero, List.length_eq_zero] at hlen
      subst hlen
      exact ⟨[], trivial, rfl, List.nodup_singleton x, by simp⟩
  | succ n ih =>
      intro steps x hlen hw
      by_cases hx : x ∈ steps.map Prod.snd
      · obtain ⟨s, hs, hsnd⟩ := List.mem_map.mp hx
        obtain ⟨pre, post, rfl⟩ := List.append_of_mem hs
        obtain ⟨i, y⟩ := s
        cases hsnd
        obtain ⟨hpre, hmid⟩ := isWalk_append.mp hw
        obtain ⟨_, _, hpost⟩ := isWalk_cons.mp hmid
        have hlen2 : post.length ≤ n := by
          have := hlen
          simp only [List.length_append, List.length_cons] at this
          omega
        obtain ⟨steps2, hw2, he2, hnd2, hsub2⟩ := ih hlen2 hpost
        refine ⟨steps2, hw2, ?_, hnd2, ?_⟩
        · rw [he2, walkEnd_append, walkEnd_cons]
        · intro z hz
          have := hsub2 z hz
          simp only [List.map_append, List.map_cons]
          exact List.mem_append_right _ (List.mem_cons_of_mem _ this)
      · match steps, hw with
        | [], _ => exact ⟨[], trivial, rfl, List.nodup_singleton x, by simp⟩
        | (i, y) :: rest, hw =>
          obtain ⟨hi, ht, hrest⟩ := hw
          have hlen2 : rest.length ≤ n := by
            simp only [List.length_cons] at hlen; omega
          obtain ⟨steps2, hw2, he2, hnd2, hsub2⟩ := ih hlen2 hrest
          have hxy : ¬ (x = y ∨ x ∈ rest.map Prod.snd) := by
            intro hc
            exact hx (by simpa using hc)
          push_neg at hxy
          refine ⟨(i, y) :: steps2, ⟨hi, ht, hw2⟩, ?_, ?_, ?_⟩
          · rw [walkEnd_cons, walkEnd_cons, he2]
          · refine List.Nodup.cons ?_ (by simpa using hnd2)
            simp only [List.map_cons, List.mem_cons]
            push_neg
            exact ⟨hxy.1, fun hc => hxy.2 (hsub2 x hc)⟩
          · intro z hz
            simp only [List.map_cons, List.mem_cons] at hz ⊢
            rcases hz with hz | hz
            · exact Or.inl hz
            · exact Or.inr (hsub2 z hz)

/-- Common endpoint-pair fact: two steps along the same edge id share
its two endpoints. -/
theorem touches_snd {E : List UEdge} {j : ℕ} {x y w z : String}
    (h1 : touches E j x y) (h2 : touches E j w z) : z = x ∨ z = y := by
  obtain ⟨e, he, hor1⟩ := h1
  obtain ⟨e2, he2, hor2⟩ := h2
  have : e2 = e := Option.some.inj (he2.symm.trans he)
  subst this
  rcases hor1 with ⟨hu, hv⟩ | ⟨hu, hv⟩ <;> rcases hor2 with ⟨hu2, hv2⟩ | ⟨hu2, hv2⟩
  · exact Or.inr (hv2.symm.trans hv)
  · exact Or.inl (hu2.symm.trans hu)
  · exact Or.inl (hv2.symm.trans hv)
  · exact Or.inr (hu2.symm.trans hu)

/-- A simple walk from inside the node set `C` to outside it contains
a crossing step whose edge id occurs nowhere else in the walk. -/
theorem walk_cross {E : List UEdge} {T : List ℕ} {C : List String} :
    ∀ {steps : List (ℕ × String)} {x : String}, IsWalk E T x steps → x ∈ C →
    walkEnd x steps ∉ C → (x :: steps.map Prod.snd).Nodup →
    ∃ f a b pre post, steps = pre ++ (f, b) :: post ∧ f ∈ T ∧ touches E f a b ∧
      a ∈ C ∧ b ∉ C ∧ walkEnd x pre = a ∧
      (∀ s ∈ pre, s.1 ≠ f) ∧ ∀ s ∈ post, s.1 ≠ f := by
  intro steps
  induction steps with
  | nil => intro x _ hx hy _; exact absurd hx hy
  | cons s0 rest ih =>
      obtain ⟨i, y⟩ := s0
      intro x hw hx hy hnd
      obtain ⟨hi, ht, hrest⟩ := hw
      have hndt : (y :: rest.map Prod.snd).Nodup := by
        simpa using hnd.of_cons
      by_cases hyC : y ∈ C
      · obtain ⟨f, a, b, pre, post, heq, hfT, htf, haC, hbC, hend, hpre, hpost⟩ :=
          ih hrest hyC (by rwa [walkEnd_cons] at hy) hndt
        refine ⟨f, a, b, (i, y) :: pre, post, by rw [heq, List.cons_append], hfT, htf,
          haC, hbC, by rw [walkEnd_cons]; exact hend, ?_, hpost⟩
        intro s hs
        rcases List.mem_cons.mp hs with hs | hs
        · subst hs
          intro hif
          subst hif
          rcases touches_snd ht htf with hb | hb
          · exact hbC (by rw [hb]; exact hx)
          · exact hbC (by rw [hb]; exact hyC)
        · exact hpre s hs
      · refine ⟨i, x, y, [], rest, rfl, hi, ht, hx, hyC, rfl, by simp, ?_⟩
        intro s hs hif
        obtain ⟨_, w, htw⟩ := isWalk_mem hrest s hs
        rw [hif] at htw
        have hz : s.2 ∈ rest.map Prod.snd := List.mem_map_of_mem Prod.snd hs
        rcases touches_snd ht htw with hb | hb
        · rw [hb] at hz
          exact (List.nodup_cons.mp hnd).1 (by simpa using Or.inr hz)
        · rw [hb] at hz
          exact (List.nodup_cons.mp hndt).1 hz

/-- Any walk from inside `C` to outside it uses some crossing edge. -/
theorem walk_cross_weak {E : List UEdge} {S : List ℕ} {C : List String} :
    ∀ {steps : List (ℕ × String)} {x : String}, IsWalk E S x steps → x ∈ C →
    walkEnd x steps ∉ C →
    ∃ f, f ∈ S ∧ ∃ a b, touches E f a b ∧ a ∈ C ∧ b ∉ C := by
  intro steps
  induction steps with
  | nil => intro x _ hx hy; exact absurd hx hy
  | cons s0 rest ih =>
      obtain ⟨i, y⟩ := s0
      intro x hw hx hy
      obtain ⟨hi, ht, hrest⟩ := hw
      by_cases hyC : y ∈ C
      · exact ih hrest hyC (by rwa [walkEnd_cons] at hy)
      · exact ⟨i, hi, x, y, ht, hx, hyC⟩

/-! ### Sorting and splicing of Prim candidates (C2) -/

theorem insertSorted_perm (a : Cand) (l : List Cand) :
    (insertSorted a l).Perm (a :: l) := by
  induction l with
  | nil => exact List.Perm.refl _
  | cons b l ih =>
      simp only [insertSorted]
      split
      · exact List.Perm.refl _
      · exact (ih.cons b).trans (List.Perm.swap a b l)

theorem jsSortByWeight_perm (l : List Cand) : (jsSortByWeight l).Perm l := by
  induction l with
  | nil => exact List.Perm.refl _
  | cons a l ih =>
      simp only [jsSortByWeight, List.foldr_cons] at ih ⊢
      exact (insertSorted_perm a _).trans (ih.cons a)

theorem candLe_iff {a b : Cand} {qa qb : ℚ} (ha : a.weight = .fin qa)
    (hb : b.weight = .fin qb) : candLe a b = true ↔ qa ≤ qb := by
  simp only [candLe, ha, hb, JsNum.sub]
  constructor
  · intro h
    exact sub_nonpos.mp (by exact_mod_cast of_decide_eq_true h)
  · intro h
    exact decide_eq_true_eq.mpr (sub_nonpos.mpr h)

theorem wle_refl {a : Cand} : wle a a := by
  intro qa qb h1 h2
  rw [h1] at h2
  rw [JsNum.fin.inj h2]

theorem insertSorted_pairwise {a : Cand} {l : List Cand} {qa : ℚ}
    (ha : a.weight = .fin qa) (hl : ∀ c ∈ l, ∃ q, c.weight = .fin q)
    (hp : List.Pairwise wle l) : List.Pairwise wle (insertSorted a l) := by
  induction l with
  | nil => simp [insertSorted]
  | cons b l ih =>
      obtain ⟨qb, hqb⟩ := hl b (List.mem_cons_self _ _)
      obtain ⟨hbl, hpl⟩ := List.pairwise_cons.mp hp
      simp only [insertSorted]
      split
      · rename_i hle
        have hab : qa ≤ qb := (candLe_iff ha hqb).mp hle
        refine List.Pairwise.cons ?_ hp
        intro c hc qa2 qc h1 h2
        obtain rfl : qa2 = qa := by
          rw [ha] at h1; exact (JsNum.fin.inj h1).symm
        rcases List.mem_cons.mp hc with rfl | hc
        · rw [hqb] at h2
          rw [← JsNum.fin.inj h2]
          exact hab
        · obtain ⟨qc2, hqc⟩ := hl c (List.mem_cons_of_mem _ hc)
          exact hab.trans (hbl c hc qb qc hqb h2)
      · rename_i hle
        have hba : qb ≤ qa := by
          by_contra hcon
          push_neg at hcon
          exact hle ((candLe_iff ha hqb).mpr hcon.le)
        refine List.Pairwise.cons ?_
          (ih (fun c hc => hl c (List.mem_cons_of_mem _ hc)) hpl)
        intro c hc
        rcases List.mem_cons.mp ((insertSorted_perm a l).mem_iff.mp hc) with rfl | hc
        · intro qb2 qa2 h1 h2
          rw [hqb] at h1
          rw [ha] at h2
          rw [← JsNum.fin.inj h1, ← JsNum.fin.inj h2]
          exact hba
        · exact hbl c hc

theorem jsSortByWeight_pairwise {l : List Cand}
    (hl : ∀ c ∈ l, ∃ q, c.weight = .fin q) :
    List.Pairwise wle (jsSortByWeight l) := by
  induction l with
  | nil => simp [jsSortByWeight]
  | cons a l ih =>
      obtain ⟨qa, hqa⟩ := hl a (List.mem_cons_self _ _)
      have hl2 : ∀ c ∈ l, ∃ q, c.weight = .fin q :=
        fun c hc => hl c (List.mem_cons_of_mem _ hc)
      have hfin : ∀ c ∈ jsSortByWeight l, ∃ q, c.weight = .fin q :=
        fun c hc => hl2 c ((jsSortByWeight_perm l).mem_iff.mp hc)
      simp only [jsSortByWeight, List.foldr_cons] at ih ⊢
      exact insertSorted_pairwise hqa hfin (ih hl2)

theorem spliceFirstOut_eq {inMST : List String} :
    ∀ {l : List Cand} {ch : Cand} {rest : List Cand},
    spliceFirstOut inMST l = some (ch, rest) →
    ∃ A B, l = A ++ ch :: B ∧ rest = A ++ B ∧ (∀ c ∈ A, c.toId ∈ inMST) ∧
      ch.toId ∉ inMST := by
  intro l
  induction l with
  | nil => intro ch rest h; exact absurd h (by simp [spliceFirstOut])
  | cons c l ih =>
      intro ch rest h
      simp only [spliceFirstOut] at h
      split at h
      · rename_i hcIn
        split at h
        · exact absurd h (by simp)
        · rename_i ch0 l0 hmatch
          obtain ⟨heq1, heq2⟩ := Prod.mk.injEq .. ▸ Option.some.inj h
          subst heq1
          subst heq2
          obtain ⟨A, B, hl, hrest, hA, hout⟩ := ih hmatch
          refine ⟨c :: A, B, by rw [hl, List.cons_append], by rw [hrest, List.cons_append],
            ?_, hout⟩
          intro d hd
          rcases List.mem_cons.mp hd with rfl | hd
          · exact hcIn
          · exact hA d hd
      · rename_i hcOut
        obtain ⟨heq1, heq2⟩ := Prod.mk.injEq .. ▸ Option.some.inj h
        subst heq1
        subst heq2
        exact ⟨[], l, rfl, rfl, by simp, hcOut⟩

theorem spliceFirstOut_none {inMST : List String} :
    ∀ {l : List Cand}, spliceFirstOut inMST l = none → ∀ c ∈ l, c.toId ∈ inMST := by
  intro l
  induction l with
  | nil => intro _ c hc; exact absurd hc (List.not_mem_nil c)
  | cons c l ih =>
      intro h d hd
      simp only [spliceFirstOut] at h
      split at h
      · rename_i hcIn
        rcases List.mem_cons.mp hd with rfl | hd
        · exact hcIn
        · split at h
          · rename_i hnone
            exact ih hnone d hd
          · exact absurd h (by simp)
      · exact absurd h (by simp)

theorem splice_min {inMST : List String} {l : List Cand} {ch : Cand}
    {rest : List Cand} (hp : List.Pairwise wle l)
    (h : spliceFirstOut inMST l = some (ch, rest)) :
    ∀ d ∈ l, d.toId ∉ inMST → wle ch d := by
  obtain ⟨A, B, rfl, _, hA, _⟩ := spliceFirstOut_eq h
  intro d hd hdOut
  rcases List.mem_append.mp hd with hd | hd
  · exact absurd (hA d hd) hdOut
  · rcases List.mem_cons.mp hd with rfl | hd
    · exact wle_refl
    · exact (List.pairwise_cons.mp
        (hp.sublist (List.sublist_append_right A (ch :: B)))).1 d hd

/-! ### Soundness and completeness of the built adjacency map (C2) -/

theorem entriesAt_adjPush (m : List (String × List AdjEntry)) (k : String)
    (e : AdjEntry) (x : String) :
    entriesAt (adjPush m k e) x =
      if x = k then entriesAt m x ++ [e] else entriesAt m x := by
  induction m with
  | nil =>
      simp only [adjPush, entriesAt, assocGet]
      by_cases h : x = k
      · subst h
        rw [if_pos rfl, if_pos rfl]
        rfl
      · rw [if_neg (fun hc => h hc.symm), if_neg h]
  | cons p rest ih =>
      obtain ⟨k', l⟩ := p
      simp only [adjPush]
      by_cases hk : k' = k
      · subst hk
        rw [if_pos rfl]
        simp only [entriesAt, assocGet]
        by_cases hx : k' = x
        · subst hx
          rw [if_pos rfl, if_pos rfl, if_pos rfl]
          rfl
        · rw [if_neg hx, if_neg hx, if_neg (fun hc : x = k' => hx hc.symm)]
      · rw [if_neg hk]
        simp only [entriesAt, assocGet] at ih ⊢
        by_cases hx : k' = x
        · subst hx
          rw [if_neg hk, if_pos rfl, if_pos rfl]
        · rw [if_neg hx, if_neg hx]
          exact ih

theorem entriesAt_mkAdjAux_mono :
    ∀ (Es : List UEdge) (adj : List (String × List AdjEntry)) (i0 : ℕ) (x : String)
    {ent : AdjEntry}, ent ∈ entriesAt adj x → ent ∈ entriesAt (mkAdjAux adj i0 Es) x := by
  intro Es
  induction Es with
  | nil => intro adj i0 x ent h; exact h
  | cons e Es ih =>
      intro adj i0 x ent h
      simp only [mkAdjAux]
      apply ih
      simp only [pushUEdge]
      rw [entriesAt_adjPush, entriesAt_adjPush]
      split <;> split <;> simp [h]

theorem mkAdjAux_sound (E : List UEdge) :
    ∀ (Es : List UEdge) (adj : List (String × List AdjEntry)) (i0 : ℕ),
    (∀ k e2, Es.get? k = some e2 → E.get? (i0 + k) = some e2) →
    ∀ (x : String) (ent : AdjEntry), ent ∈ entriesAt (mkAdjAux adj i0 Es) x →
    ent ∈ entriesAt adj x ∨ SoundEnt E x ent := by
  intro Es
  induction Es with
  | nil => intro adj i0 _ x ent h; exact Or.inl h
  | cons e Es ih =>
      intro adj i0 hoff x ent h
      simp only [mkAdjAux] at h
      have hoff2 : ∀ k e2, Es.get? k = some e2 → E.get? (i0 + 1 + k) = some e2 := by
        intro k e2 hk
        have h3 := hoff (k + 1) e2 (by simpa using hk)
        rwa [show i0 + (k + 1) = i0 + 1 + k by omega] at h3
      rcases ih (pushUEdge adj i0 e) (i0 + 1) hoff2 x ent h with h2 | h2
      · have he : E.get? i0 = some e := by simpa using hoff 0 e rfl
        simp only [pushUEdge] at h2
        rw [entriesAt_adjPush, entriesAt_adjPush] at h2
        split at h2 <;> rename_i hv
        · split at h2 <;> rename_i hu
          · simp only [List.mem_append, List.mem_singleton] at h2
            rcases h2 with (h2 | rfl) | rfl
            · exact Or.inl h2
            · exact Or.inr ⟨e, he, rfl, Or.inl ⟨hu.symm, rfl⟩⟩
            · exact Or.inr ⟨e, he, rfl, Or.inr ⟨hv.symm, rfl⟩⟩
          · simp only [List.mem_append, List.mem_singleton] at h2
            rcases h2 with h2 | rfl
            · exact Or.inl h2
            · exact Or.inr ⟨e, he, rfl, Or.inr ⟨hv.symm, rfl⟩⟩
        · split at h2 <;> rename_i hu
          · simp only [List.mem_append, List.mem_singleton] at h2
            rcases h2 with h2 | rfl
            · exact Or.inl h2
            · exact Or.inr ⟨e, he, rfl, Or.inl ⟨hu.symm, rfl⟩⟩
          · exact Or.inl h2
      · exact Or.inr h2

theorem mkAdj_sound (E : List UEdge) (x : String) :
    ∀ ent ∈ entriesAt (mkAdj E) x, SoundEnt E x ent := by
  intro ent h
  rcases mkAdjAux_sound E E [] 0 (by intro k e2 hk; simpa using hk) x ent h with h2 | h2
  · exact absurd h2 (by simp [entriesAt, assocGet])
  · exact h2

theorem mkAdjAux_complete :
    ∀ (Es : List UEdge) (adj : List (String × List AdjEntry)) (i0 : ℕ)
    (k : ℕ) (e : UEdge), Es.get? k = some e →
    (⟨e.v, .fin e.w, i0 + k⟩ : AdjEntry) ∈ entriesAt (mkAdjAux adj i0 Es) e.u ∧
    (⟨e.u, .fin e.w, i0 + k⟩ : AdjEntry) ∈ entriesAt (mkAdjAux adj i0 Es) e.v := by
  intro Es
  induction Es with
  | nil => intro adj i0 k e hk; exact absurd hk (by simp)
  | cons e0 Es ih =>
      intro adj i0 k e hk
      match k, hk with
      | 0, hk =>
          obtain rfl : e0 = e := by simpa using hk
          simp only [mkAdjAux]
          constructor <;>
            (apply entriesAt_mkAdjAux_mono
             simp only [pushUEdge]
             rw [entriesAt_adjPush, entriesAt_adjPush]
             split <;> split <;> simp_all)
      | k + 1, hk =>
          have h3 := ih (pushUEdge adj i0 e0) (i0 + 1) k e (by simpa using hk)
          rw [show i0 + 1 + k = i0 + (k + 1) by omega] at h3
          exact h3

theorem mkAdj_complete (E : List UEdge) (k : ℕ) (e : UEdge)
    (hk : E.get? k = some e) :
    (⟨e.v, .fin e.w, k⟩ : AdjEntry) ∈ entriesAt (mkAdj E) e.u ∧
    (⟨e.u, .fin e.w, k⟩ : AdjEntry) ∈ entriesAt (mkAdj E) e.v := by
  have h3 := mkAdjAux_complete E [] 0 k e hk
  rwa [Nat.zero_add] at h3

/-! ### Sums of edge weights (C2) -/

theorem sumW_nil (E : List UEdge) : sumW E [] = 0 := rfl

theorem sumW_cons (E : List UEdge) (i : ℕ) (l : List ℕ) :
    sumW E (i :: l) = wOf E i + sumW E l := by
  simp [sumW]

theorem sumW_append (E : List UEdge) (l1 l2 : List ℕ) :
    sumW E (l1 ++ l2) = sumW E l1 + sumW E l2 := by
  simp [sumW]

theorem sumW_perm (E : List UEdge) {l l2 : List ℕ} (h : l.Perm l2) :
    sumW E l = sumW E l2 :=
  List.Perm.sum_eq (h.map (wOf E))

theorem sumW_erase (E : List UEdge) {T : List ℕ} {i : ℕ} (h : i ∈ T) :
    sumW E T = wOf E i + sumW E (T.erase i) := by
  rw [sumW_perm E (List.perm_cons_erase h), sumW_cons]

/-- Replacing the edge `f` by any other connection between its
endpoints preserves reachability. -/
theorem reach_swap {E : List UEdge} {T T2 : List ℕ} {f : ℕ}
    (hsub : ∀ i ∈ T, i ≠ f → i ∈ T2)
    (hf : ∀ p q, touches E f p q → Reach E T2 p q) :
    ∀ {x y : String}, Reach E T x y → Reach E T2 x y := by
  intro x y h
  induction h with
  | refl => exact .refl
  | tail _ hbc ih =>
      obtain ⟨i, hi, ht⟩ := hbc
      by_cases hif : i = f
      · exact ih.trans (hf _ _ (hif ▸ ht))
      · exact ih.tail ⟨i, hsub i hi hif, ht⟩

/-- The cut/exchange step: given a spanning tree `T` and an edge `cid`
leaving the visited set `C` whose weight is minimal among all edges of
`T` leaving `C`, some spanning tree at most as heavy as `T` contains
`cid` together with every edge of `T` lying inside `C`. -/
theorem exchange {E : List UEdge} {nodes : List String} {C : List String}
    {T : List ℕ} (hT : SpanningTree E nodes T)
    {cid : ℕ} {e : UEdge} (he : E.get? cid = some e) {u0 v0 : String}
    (hor : (e.u = u0 ∧ e.v = v0) ∨ (e.v = u0 ∧ e.u = v0))
    (hu : u0 ∈ C) (hv : v0 ∉ C) (hCn : ∀ x ∈ C, x ∈ nodes) (hvn : v0 ∈ nodes)
    (hmin : ∀ f ef, f ∈ T → E.get? f = some ef →
      ((ef.u ∈ C ∧ ef.v ∉ C) ∨ (ef.v ∈ C ∧ ef.u ∉ C)) → e.w ≤ ef.w) :
    ∃ T2, SpanningTree E nodes T2 ∧ sumW E T2 ≤ sumW E T ∧ cid ∈ T2 ∧
      ∀ i ∈ T, (∀ ei, E.get? i = some ei → ei.u ∈ C ∧ ei.v ∈ C) → i ∈ T2 := by
  obtain ⟨hTnd, hTval, hTlen, hTspan⟩ := hT
  by_cases hcT : cid ∈ T
  · exact ⟨T, ⟨hTnd, hTval, hTlen, hTspan⟩, le_refl _, hcT, fun i hi _ => hi⟩
  · have htc : touches E cid u0 v0 := ⟨e, he, by tauto⟩
    have hreach : Reach E T u0 v0 := hTspan u0 (hCn u0 hu) v0 hvn
    obtain ⟨steps, hw, hend⟩ := reach_isWalk hreach
    obtain ⟨steps2, hw2, hend2, hnd2, _⟩ := walk_simplify steps.length (le_refl _) hw
    have hend3 : walkEnd u0 steps2 ∉ C := by rw [hend2, hend]; exact hv
    obtain ⟨f, a, b, pre, post, heqs, hfT, htf, haC, hbC, hendpre, hpre, hpost⟩ :=
      walk_cross hw2 hu hend3 hnd2
    obtain ⟨fe, hfe, hforc⟩ := htf
    have hcf : cid ≠ f := fun hc => hcT (hc ▸ hfT)
    -- the exchanged tree
    have hT2mem : ∀ i ∈ T, i ≠ f → i ∈ cid :: T.erase f := by
      intro i hi hif
      exact List.mem_cons_of_mem _ ((hTnd.mem_erase_iff).mpr ⟨hif, hi⟩)
    -- the walk pieces avoid f and live in the exchanged tree
    rw [heqs] at hw2
    obtain ⟨hwpre, hwmid⟩ := isWalk_append.mp hw2
    obtain ⟨_, _, hwpost⟩ := isWalk_cons.mp hwmid
    have hwpre2 : IsWalk E (cid :: T.erase f) u0 pre :=
      isWalk_relabel hwpre fun s hs =>
        hT2mem s.1 (isWalk_mem hwpre s hs).1 (hpre s hs)
    have hwpost2 : IsWalk E (cid :: T.erase f) b post :=
      isWalk_relabel hwpost fun s hs =>
        hT2mem s.1 (isWalk_mem hwpost s hs).1 (hpost s hs)
    have hendpost : walkEnd b post = v0 := by
      have h4 : walkEnd u0 steps2 = v0 := hend2.trans hend
      rw [heqs, walkEnd_append, walkEnd_cons] at h4
      exact h4
    -- the endpoints of f stay connected without it
    have hab : Reach E (cid :: T.erase f) a b := by
      have h1 : Reach E (cid :: T.erase f) a u0 := by
        have := isWalk_reach hwpre2
        rw [hendpre] at this
        exact reach_symm this
      have h2 : Reach E (cid :: T.erase f) u0 v0 :=
        Relation.ReflTransGen.single ⟨cid, List.mem_cons_self _ _, htc⟩
      have h3 : Reach E (cid :: T.erase f) v0 b := by
        have := isWalk_reach hwpost2
        rw [hendpost] at this
        exact reach_symm this
      exact (h1.trans h2).trans h3
    have hfconn : ∀ p q, touches E f p q → Reach E (cid :: T.erase f) p q := by
      intro p q hpq
      obtain ⟨fe2, hfe2, hpqor⟩ := hpq
      have hfe3 : fe2 = fe := Option.some.inj (hfe2.symm.trans hfe)
      subst hfe3
      rcases hforc with ⟨h5, h6⟩ | ⟨h5, h6⟩ <;> rcases hpqor with ⟨h7, h8⟩ | ⟨h7, h8⟩
      · rw [← h7, h5, ← h8, h6]; exact hab
      · rw [← h8, h6, ← h7, h5]; exact reach_symm hab
      · rw [← h7, h5, ← h8, h6]; exact reach_symm hab
      · rw [← h8, h6, ← h7, h5]; exact hab
    have hswap : ∀ {x y : String}, Reach E T x y → Reach E (cid :: T.erase f) x y :=
      fun h => reach_swap hT2mem hfconn h
    have hcidlt : cid < E.length := by
      rcases List.get?_eq_some.mp he with ⟨h9, _⟩
      exact h9
    have hTpos : 0 < T.length := List.length_pos.mpr (List.ne_nil_of_mem hfT)
    refine ⟨cid :: T.erase f, ⟨?_, ?_, ?_, ?_⟩, ?_, List.mem_cons_self _ _, ?_⟩
    · exact List.Nodup.cons (fun hc => hcT (List.mem_of_mem_erase hc)) (hTnd.erase f)
    · intro i hi
      rcases List.mem_cons.mp hi with rfl | hi
      · exact hcidlt
      · exact hTval i (List.mem_of_mem_erase hi)
    · rw [List.length_cons, List.length_erase_of_mem hfT]
      omega
    · intro x hx y hy
      exact hswap (hTspan x hx y hy)
    · -- weight comparison
      have hcross : (fe.u ∈ C ∧ fe.v ∉ C) ∨ (fe.v ∈ C ∧ fe.u ∉ C) := by
        rcases hforc with ⟨h5, h6⟩ | ⟨h5, h6⟩
        · exact Or.inl ⟨h5.symm ▸ haC, h6.symm ▸ hbC⟩
        · exact Or.inr ⟨h6.symm ▸ haC, h5.symm ▸ hbC⟩
      have hwle : e.w ≤ fe.w := hmin f fe hfT hfe hcross
      rw [sumW_cons, sumW_erase E hfT]
      have hwc : wOf E cid = e.w := by simp only [wOf, he]
      have hwf : wOf E f = fe.w := by simp only [wOf, hfe]
      rw [hwc, hwf]
      exact add_le_add_right hwle _
    · intro i hi hins
      refine hT2mem i hi fun hc => ?_
      have h10 := hins fe (hc ▸ hfe)
      rcases hforc with ⟨h5, h6⟩ | ⟨h5, h6⟩
      · exact hbC (h6 ▸ h10.2)
      · exact hbC (h5 ▸ h10.1)

theorem setAdd_not_mem {s : List String} {x : String} (h : x ∉ s) :
    setAdd s x = s ++ [x] := by
  simp only [setAdd, if_neg h]

theorem jsAdd_fin (a b : ℚ) : (JsNum.fin a).add (JsNum.fin b) = JsNum.fin (a + b) :=
  rfl

/-- While some node is missing from the visited set of an invariant
state of a connected graph, some candidate still leads outside it. -/
theorem frontier_cand {E : List UEdge} {nodes : List String} {start : String}
    {st : PrimState} (hinv : PInv E nodes start st) (hconn : ConnectedG E nodes)
    {v : String} (hvn : v ∈ nodes) (hv : v ∉ st.inMST) :
    ∃ cd ∈ st.cands, cd.toId ∉ st.inMST := by
  have hs : start ∈ nodes := hinv.sub start hinv.smem
  obtain ⟨steps, hw, hend⟩ := reach_isWalk (hconn start hs v hvn)
  obtain ⟨f, _, a, b, ht, haC, hbC⟩ :=
    walk_cross_weak hw hinv.smem (by rw [hend]; exact hv)
  obtain ⟨e, he, hor⟩ := ht
  have hor2 : (a = e.u ∧ b = e.v) ∨ (a = e.v ∧ b = e.u) := by
    rcases hor with ⟨h1, h2⟩ | ⟨h1, h2⟩
    · exact Or.inl ⟨h1.symm, h2.symm⟩
    · exact Or.inr ⟨h2.symm, h1.symm⟩
  obtain ⟨cd, hcd, _, hcdt, _⟩ := hinv.ccomp f e a b he hor2 haC hbC
  exact ⟨cd, hcd, by rw [hcdt]; exact hbC⟩

/-- One iteration of the Prim loop preserves the invariant. -/
theorem prim_step_inv {E : List UEdge} {nodes : List String} {start : String}
    {st : PrimState} (hinv : PInv E nodes start st)
    (hends : ∀ e ∈ E, e.u ∈ nodes ∧ e.v ∈ nodes)
    {ch : Cand} {rest : List Cand}
    (hsplice : spliceFirstOut st.inMST (jsSortByWeight st.cands) = some (ch, rest)) :
    PInv E nodes start
      { inMST := st.inMST ++ [ch.toId]
        cands := rest ++ (entriesAt (mkAdj E) ch.toId).filterMap fun ent =>
          if ent.toId ∈ st.inMST ++ [ch.toId] then none
          else some ⟨ch.toId, ent.toId, ent.weight, ent.edgeId⟩
        chosen := st.chosen ++ [ch.edgeId]
        totalWeight := st.totalWeight.add ch.weight } := by
  obtain ⟨A, B, hsorted, hrest, hA, htOut⟩ := spliceFirstOut_eq hsplice
  have hchmem : ch ∈ st.cands := (jsSortByWeight_perm st.cands).mem_iff.mp
    (by rw [hsorted]; exact List.mem_append_right A (List.mem_cons_self _ _))
  obtain ⟨e, he, hwfin, hfrom, horc⟩ := hinv.csound ch hchmem
  have heE : e ∈ E := List.get?_mem he
  have htn : ch.toId ∈ nodes := by
    rcases horc with ⟨h1, h2⟩ | ⟨h1, h2⟩
    · exact h2 ▸ (hends e heE).2
    · exact h2 ▸ (hends e heE).1
  have hrestmem : ∀ cd ∈ rest, cd ∈ st.cands := by
    intro cd hcd
    apply (jsSortByWeight_perm st.cands).mem_iff.mp
    rw [hsorted]
    rw [hrest] at hcd
    rcases List.mem_append.mp hcd with h | h
    · exact List.mem_append_left _ h
    · exact List.mem_append_right _ (List.mem_cons_of_mem _ h)
  refine ⟨?_, ?_, ?_, ?_, ?_, ?_, ?_, ?_, ?_, ?_, ?_⟩
  · -- inMST stays duplicate-free
    exact hinv.ndup.append (List.nodup_singleton _)
      (fun x hx hxt => htOut ((List.mem_singleton.mp hxt) ▸ hx))
  · -- inMST stays inside the node list
    intro x hx
    rcases List.mem_append.mp hx with hx | hx
    · exact hinv.sub x hx
    · exact (List.mem_singleton.mp hx) ▸ htn
  · exact List.mem_append_left _ hinv.smem
  · -- chosen still connects the visited set
    intro x hx
    have hmono : ∀ {y : String}, Reach E st.chosen start y →
        Reach E (st.chosen ++ [ch.edgeId]) start y :=
      fun h => reach_mono (fun i hi => List.mem_append_left _ hi) h
    have htouch : touches E ch.edgeId ch.fromId ch.toId := ⟨e, he, by tauto⟩
    rcases List.mem_append.mp hx with hx | hx
    · exact hmono (hinv.conn x hx)
    · rw [List.mem_singleton.mp hx]
      exact (hmono (hinv.conn ch.fromId hfrom)).tail
        ⟨ch.edgeId, List.mem_append_right _ (List.mem_singleton_self _), htouch⟩
  · -- chosen ids stay distinct
    refine hinv.cnd.append (List.nodup_singleton _) ?_
    intro i hi hit
    rw [List.mem_singleton] at hit
    subst hit
    obtain ⟨e3, he3, hu3, hv3⟩ := hinv.cval _ hi
    obtain rfl : e3 = e := Option.some.inj (he3.symm.trans he)
    rcases horc with ⟨h1, h2⟩ | ⟨h1, h2⟩
    · exact htOut (h2 ▸ hv3)
    · exact htOut (h2 ▸ hu3)
  · -- chosen edges stay inside the visited set
    intro i hi
    rcases List.mem_append.mp hi with hi | hi
    · obtain ⟨e3, he3, hu3, hv3⟩ := hinv.cval i hi
      exact ⟨e3, he3, List.mem_append_left _ hu3, List.mem_append_left _ hv3⟩
    · rw [List.mem_singleton] at hi
      subst hi
      rcases horc with ⟨h1, h2⟩ | ⟨h1, h2⟩
      · exact ⟨e, he, List.mem_append_left _ (by rw [h1]; exact hfrom),
          List.mem_append_right _ (by rw [h2]; exact List.mem_singleton_self _)⟩
      · exact ⟨e, he, List.mem_append_right _ (by rw [h2]; exact List.mem_singleton_self _),
          List.mem_append_left _ (by rw [h1]; exact hfrom)⟩
  · -- one more node, one more edge
    have h4 := hinv.ccount
    simp only [List.length_append, List.length_singleton]
    omega
  · -- total weight is the sum of the chosen weights
    have h4 : wOf E ch.edgeId = e.w := by simp only [wOf, he]
    rw [hinv.tw, hwfin, jsAdd_fin, sumW_append, sumW_cons, sumW_nil, add_zero, h4]
  · -- candidate soundness
    intro cd hcd
    rcases List.mem_append.mp hcd with hcd | hcd
    · obtain ⟨e3, he3, hw3, hf3, ho3⟩ := hinv.csound cd (hrestmem cd hcd)
      exact ⟨e3, he3, hw3, List.mem_append_left _ hf3, ho3⟩
    · obtain ⟨ent, hent, hgent⟩ := List.mem_filterMap.mp hcd
      by_cases hc : ent.toId ∈ st.inMST ++ [ch.toId]
      · rw [if_pos hc] at hgent
        exact absurd hgent (by simp)
      · rw [if_neg hc] at hgent
        obtain rfl := Option.some.inj hgent
        obtain ⟨e3, he3, hw3, ho3⟩ := mkAdj_sound E ch.toId ent hent
        exact ⟨e3, he3, hw3, List.mem_append_right _ (List.mem_singleton_self _), ho3⟩
  · -- candidate completeness
    intro i e2 a b he2 hor2 haIn hbOut
    have hbC : b ∉ st.inMST := fun hc => hbOut (List.mem_append_left _ hc)
    rcases List.mem_append.mp haIn with haC | haT
    · obtain ⟨cd, hcd, hcdi, hcdt, hcdw⟩ := hinv.ccomp i e2 a b he2 hor2 haC hbC
      have hcds : cd ∈ A ++ ch :: B := by
        rw [← hsorted]
        exact (jsSortByWeight_perm st.cands).mem_iff.mpr hcd
      have hcdne : cd ≠ ch := by
        intro hc
        rw [hc] at hcdt
        exact hbOut (List.mem_append_right _ (by rw [← hcdt]; exact List.mem_singleton_self _))
      have hcdrest : cd ∈ rest := by
        rw [hrest]
        rcases List.mem_append.mp hcds with h | h
        · exact List.mem_append_left _ h
        · rcases List.mem_cons.mp h with h | h
          · exact absurd h hcdne
          · exact List.mem_append_right _ h
      exact ⟨cd, List.mem_append_left _ hcdrest, hcdi, hcdt, hcdw⟩
    · rw [List.mem_singleton] at haT
      subst haT
      rcases hor2 with ⟨h1, h2⟩ | ⟨h1, h2⟩
      · have hc2 := (mkAdj_complete E i e2 he2).1
        rw [← h1] at hc2
        refine ⟨⟨ch.toId, e2.v, .fin e2.w, i⟩, List.mem_append_right _ ?_, rfl, h2.symm, rfl⟩
        apply List.mem_filterMap.mpr
        refine ⟨⟨e2.v, .fin e2.w, i⟩, hc2, ?_⟩
        rw [if_neg (by rw [← h2]; exact hbOut)]
      · have hc2 := (mkAdj_complete E i e2 he2).2
        rw [← h1] at hc2
        refine ⟨⟨ch.toId, e2.u, .fin e2.w, i⟩, List.mem_append_right _ ?_, rfl, h2.symm, rfl⟩
        apply List.mem_filterMap.mpr
        refine ⟨⟨e2.u, .fin e2.w, i⟩, hc2, ?_⟩
        rw [if_neg (by rw [← h2]; exact hbOut)]
  · -- the chosen edges still extend to a light spanning tree
    intro T hT
    obtain ⟨T0, hT0, hle0, hsub0⟩ := hinv.mst T hT
    have hpw : List.Pairwise wle (jsSortByWeight st.cands) := by
      apply jsSortByWeight_pairwise
      intro c hc
      obtain ⟨e3, _, hw3, _, _⟩ := hinv.csound c hc
      exact ⟨e3.w, hw3⟩
    have hmin : ∀ f ef, f ∈ T0 → E.get? f = some ef →
        ((ef.u ∈ st.inMST ∧ ef.v ∉ st.inMST) ∨ (ef.v ∈ st.inMST ∧ ef.u ∉ st.inMST)) →
        e.w ≤ ef.w := by
      intro f ef _ hef hcross
      rcases hcross with ⟨hu4, hv4⟩ | ⟨hu4, hv4⟩
      · obtain ⟨cd, hcd, _, hcdt, hcdw⟩ :=
          hinv.ccomp f ef ef.u ef.v hef (Or.inl ⟨rfl, rfl⟩) hu4 hv4
        have hcds : cd ∈ jsSortByWeight st.cands :=
          (jsSortByWeight_perm _).mem_iff.mpr hcd
        exact splice_min hpw hsplice cd hcds (by rw [hcdt]; exact hv4) e.w ef.w hwfin hcdw
      · obtain ⟨cd, hcd, _, hcdt, hcdw⟩ :=
          hinv.ccomp f ef ef.v ef.u hef (Or.inr ⟨rfl, rfl⟩) hu4 hv4
        have hcds : cd ∈ jsSortByWeight st.cands :=
          (jsSortByWeight_perm _).mem_iff.mpr hcd
        exact splice_min hpw hsplice cd hcds (by rw [hcdt]; exact hv4) e.w ef.w hwfin hcdw
    obtain ⟨T2, hT2, hle2, hcidT2, hinside⟩ :=
      exchange hT0 he horc hfrom htOut hinv.sub htn hmin
    refine ⟨T2, hT2, hle2.trans hle0, ?_⟩
    intro i hi
    rcases List.mem_append.mp hi with hi | hi
    · apply hinside i (hsub0 i hi)
      intro ei hei
      obtain ⟨e3, he3, hu3, hv3⟩ := hinv.cval i hi
      obtain rfl : ei = e3 := Option.some.inj (hei.symm.trans he3)
      exact ⟨hu3, hv3⟩
    · rw [List.mem_singleton] at hi
      exact hi ▸ hcidT2

/-- The fuelled Prim loop: from an invariant state of a connected
graph with enough fuel it terminates, keeps the invariant, and ends
with every node visited. -/
theorem primLoop_spec {E : List UEdge} {nodes : List String} {start : String}
    (hconn : ConnectedG E nodes)
    (hends : ∀ e ∈ E, e.u ∈ nodes ∧ e.v ∈ nodes) :
    ∀ (fuel : ℕ) (st : PrimState), PInv E nodes start st →
    nodes.length + 1 ≤ st.inMST.length + fuel →
    ∃ st2, primLoop (mkAdj E) nodes.length fuel st = some st2 ∧
      PInv E nodes start st2 ∧ ∀ x ∈ nodes, x ∈ st2.inMST := by
  intro fuel
  induction fuel with
  | zero =>
      intro st hinv hlen
      have hle := (hinv.ndup.subperm hinv.sub).length_le
      exact absurd hlen (by omega)
  | succ fuel ih =>
      intro st hinv hlen
      rw [primLoop]
      by_cases hcond : st.inMST.length < nodes.length ∧ st.cands ≠ []
      · rw [if_pos hcond]
        simp only []
        split
        · rename_i hsp
          refine ⟨st, rfl, hinv, ?_⟩
          intro x hx
          by_contra hxn
          obtain ⟨cd, hcd, hcdt⟩ := frontier_cand hinv hconn hx hxn
          exact hcdt
            (spliceFirstOut_none hsp cd ((jsSortByWeight_perm _).mem_iff.mpr hcd))
        · rename_i ch rest hsp
          obtain ⟨A, B, _, _, _, htOut⟩ := spliceFirstOut_eq hsp
          rw [setAdd_not_mem htOut]
          have hinv2 := prim_step_inv hinv hends hsp
          have hlen2 : nodes.length + 1 ≤ (st.inMST ++ [ch.toId]).length + fuel := by
            simp only [List.length_append, List.length_singleton]
            omega
          obtain ⟨st2, heq, hinv3, hcov⟩ := ih _ hinv2 hlen2
          exact ⟨st2, heq, hinv3, hcov⟩
      · rw [if_neg hcond]
        refine ⟨st, rfl, hinv, ?_⟩
        intro x hx
        by_cases hlt : st.inMST.length < nodes.length
        · have hcands : st.cands = [] := by
            by_contra hc
            exact hcond ⟨hlt, hc⟩
          by_contra hxn
          obtain ⟨cd, hcd, _⟩ := frontier_cand hinv hconn hx hxn
          rw [hcands] at hcd
          exact absurd hcd (List.not_mem_nil cd)
        · push_neg at hlt
          exact ((hinv.ndup.subperm hinv.sub).perm_of_length_le hlt).mem_iff.mpr hx

/-- C2: for every connected undirected graph model with `n >= 1` nodes
and finite numeric edge weights (the adjacency map an undirected parse
builds from its edge list), `primMST` succeeds and returns exactly
`n - 1` edge ids, those edges form a spanning tree of the graph, and
the returned total weight is the sum of the chosen edges' weights and
is minimal over all spanning trees. -/
theorem claim_C2_prim_mst (E : List UEdge) (nodes : List String)
    (startNode : Option String) (hnd : nodes.Nodup) (hne : nodes ≠ [])
    (hends : ∀ e ∈ E, e.u ∈ nodes ∧ e.v ∈ nodes)
    (hconn : ConnectedG E nodes) :
    ∃ res, primMST (mkAdj E) nodes startNode = some res ∧
      res.edgeIds.length + 1 = nodes.length ∧
      SpanningTree E nodes res.edgeIds ∧
      res.totalWeight = .fin (sumW E res.edgeIds) ∧
      ∀ T, SpanningTree E nodes T → sumW E res.edgeIds ≤ sumW E T := by
  have hlpos : nodes.length ≠ 0 := by
    intro hc
    exact hne (List.length_eq_zero.mp hc)
  unfold primMST
  rw [if_neg hlpos]
  simp only []
  have hhead : nodes.headD "" ∈ nodes := by
    cases nodes with
    | nil => exact absurd rfl hne
    | cons a l => exact List.mem_cons_self _ _
  have hstartmem :
      (match startNode with
        | some s => if s ≠ "" ∧ s ∈ nodes then s else nodes.headD ""
        | none => nodes.headD "") ∈ nodes := by
    rcases startNode with _ | s
    · exact hhead
    · simp only []
      split
      · rename_i h
        exact h.2
      · exact hhead
  set start :=
    (match startNode with
      | some s => if s ≠ "" ∧ s ∈ nodes then s else nodes.headD ""
      | none => nodes.headD "") with hstart
  have hinv0 : PInv E nodes start
      ⟨[start], (entriesAt (mkAdj E) start).map
        (fun ent => ⟨start, ent.toId, ent.weight, ent.edgeId⟩), [], .fin 0⟩ := by
    refine ⟨List.nodup_singleton _, ?_, List.mem_singleton_self _, ?_, List.nodup_nil,
      ?_, rfl, rfl, ?_, ?_, ?_⟩
    · intro x hx
      rw [List.mem_singleton.mp hx]
      exact hstartmem
    · intro x hx
      rw [List.mem_singleton.mp hx]
      exact .refl
    · intro i hi
      exact absurd hi (List.not_mem_nil i)
    · intro cd hcd
      obtain ⟨ent, hent, hcdeq⟩ := List.mem_map.mp hcd
      subst hcdeq
      obtain ⟨e3, he3, hw3, ho3⟩ := mkAdj_sound E start ent hent
      exact ⟨e3, he3, hw3, List.mem_singleton_self _, ho3⟩
    · intro i e2 a b he2 hor2 haIn hbOut
      rw [List.mem_singleton] at haIn
      subst haIn
      rcases hor2 with ⟨h1, h2⟩ | ⟨h1, h2⟩
      · have hc2 := (mkAdj_complete E i e2 he2).1
        rw [← h1] at hc2
        exact ⟨⟨start, e2.v, .fin e2.w, i⟩,
          List.mem_map.mpr ⟨⟨e2.v, .fin e2.w, i⟩, hc2, rfl⟩, rfl, h2.symm, rfl⟩
      · have hc2 := (mkAdj_complete E i e2 he2).2
        rw [← h1] at hc2
        exact ⟨⟨start, e2.u, .fin e2.w, i⟩,
          List.mem_map.mpr ⟨⟨e2.u, .fin e2.w, i⟩, hc2, rfl⟩, rfl, h2.symm, rfl⟩
    · intro T hT
      exact ⟨T, hT, le_refl _, fun i hi => absurd hi (List.not_mem_nil i)⟩
  have hlen0 : nodes.length + 1 ≤ 1 + nodes.length := by omega
  obtain ⟨st2, heq, hinv2, hcov⟩ :=
    primLoop_spec hconn hends nodes.length _ hinv0 (by simpa using hlen0)
  have h1 := (hinv2.ndup.subperm hinv2.sub).length_le
  have h2 := (hnd.subperm hcov).length_le
  have h3 := hinv2.ccount
  have hchlen : st2.chosen.length + 1 = nodes.length := by omega
  refine ⟨⟨st2.totalWeight, st2.chosen⟩, ?_, hchlen, ?_, hinv2.tw, ?_⟩
  · have heq2 : primLoop (mkAdj E) nodes.length nodes.length
        { inMST := [start]
          cands := ((assocGet (mkAdj E) start).getD []).map
            (fun ent => ⟨start, ent.toId, ent.weight, ent.edgeId⟩)
          chosen := []
          totalWeight := JsNum.fin 0 } = some st2 := heq
    rw [heq2]
    rfl
  · refine ⟨hinv2.cnd, ?_, hchlen, ?_⟩
    · intro i hi
      obtain ⟨e3, he3, _, _⟩ := hinv2.cval i hi
      obtain ⟨hlt, _⟩ := List.get?_eq_some.mp he3
      exact hlt
    · intro x hx y hy
      exact (reach_symm (hinv2.conn x (hcov x hx))).trans (hinv2.conn y (hcov y hy))
  · intro T hT
    obtain ⟨T2, hT2, hle2, hsub2⟩ := hinv2.mst T hT
    have hperm : st2.chosen.Perm T2 := by
      apply (hinv2.cnd.subperm hsub2).perm_of_length_le
      have h4 := hT2.2.2.1
      omega
    show sumW E st2.chosen ≤ sumW E T
    rw [sumW_perm E hperm]
    exact hle2

/-- Witness for C2: the claim applied to the concrete connected
two-node graph with the single undirected edge `A - B` of weight 2. -/
theorem claim_C2_witness :
    ∃ res, primMST (mkAdj [⟨"A", "B", 2⟩]) ["A", "B"] none = some res ∧
      res.edgeIds.length + 1 = (["A", "B"] : List String).length ∧
      SpanningTree [⟨"A", "B", 2⟩] ["A", "B"] res.edgeIds ∧
      res.totalWeight = .fin (sumW [⟨"A", "B", 2⟩] res.edgeIds) ∧
      ∀ T, SpanningTree [⟨"A", "B", 2⟩] ["A", "B"] T →
        sumW [⟨"A", "B", 2⟩] res.edgeIds ≤ sumW [⟨"A", "B", 2⟩] T := by
  apply claim_C2_prim_mst [⟨"A", "B", 2⟩] ["A", "B"] none (by decide) (by decide)
    (by decide)
  have hstep : stepRel [⟨"A", "B", 2⟩] (List.range 1) "A" "B" :=
    ⟨0, by decide, ⟨⟨"A", "B", 2⟩, rfl, Or.inl ⟨rfl, rfl⟩⟩⟩
  intro x hx y hy
  rcases List.mem_cons.mp hx with rfl | hx
  · rcases List.mem_cons.mp hy with rfl | hy
    · exact .refl
    · rw [List.mem_singleton.mp hy]
      exact Relation.ReflTransGen.single hstep
  · rw [List.mem_singleton.mp hx]
    rcases List.mem_cons.mp hy with rfl | hy
    · exact Relation.ReflTransGen.single (stepRel_symm hstep)
    · rw [List.mem_singleton.mp hy]
      exact .refl

/-! ### Undirected parser models have `mkAdj`-shaped adjacency (C2) -/

theorem mkAdjAux_append :
    ∀ (Es : List UEdge) (adj : List (String × List AdjEntry)) (i0 : ℕ) (e : UEdge),
    mkAdjAux adj i0 (Es ++ [e]) = pushUEdge (mkAdjAux adj i0 Es) (i0 + Es.length) e := by
  intro Es
  induction Es with
  | nil => intro adj i0 e; simp [mkAdjAux]
  | cons e0 Es ih =>
      intro adj i0 e
      show mkAdjAux (pushUEdge adj i0 e0) (i0 + 1) (Es ++ [e]) =
        pushUEdge (mkAdjAux (pushUEdge adj i0 e0) (i0 + 1) Es) (i0 + (e0 :: Es).length) e
      rw [ih, show i0 + (e0 :: Es).length = i0 + 1 + Es.length by
        simp only [List.length_cons]; omega]

theorem foldl_pres {α : Type} (P : PState → Prop) (f : PState → α → PState)
    (hf : ∀ st x, P st → P (f st x)) :
    ∀ (l : List α) (st : PState), P st → P (l.foldl f st) := by
  intro l
  induction l with
  | nil => intro st h; exact h
  | cons a l ih => intro st h; exact ih (f st a) (hf st a h)

theorem adjShape_init : AdjShape PState.init :=
  ⟨[], rfl, rfl, rfl, fun k e2 hk => absurd hk (by simp)⟩

theorem addEdge_adjShape (weighted : Bool) (st : PState) (u v : String)
    (w : WParam) (h : AdjShape st) : AdjShape (addEdge weighted false st u v w) := by
  obtain ⟨E2, hadj, hcnt, hlen, hcorr⟩ := h
  obtain ⟨qs, hqs⟩ := addEdge_stored_weight_fin weighted w
  refine ⟨E2 ++ [⟨u, v, qs⟩], ?_, ?_, ?_, ?_⟩
  · show (addEdge weighted false st u v w).adjacency = _
    simp only [addEdge]
    rw [if_pos (by decide)]
    rw [show mkAdj (E2 ++ [(⟨u, v, qs⟩ : UEdge)]) =
        pushUEdge (mkAdj E2) E2.length (⟨u, v, qs⟩ : UEdge) from by
      rw [mkAdj, mkAdj, mkAdjAux_append, Nat.zero_add]]
    rw [pushUEdge]
    rw [hadj, hqs, hcnt]
  · simp only [addEdge, List.length_append, List.length_singleton]
    omega
  · simp only [addEdge, List.length_append, List.length_singleton]
    omega
  · intro k e2 hk
    by_cases hklt : k < E2.length
    · rw [List.get?_append hklt] at hk
      obtain ⟨ed, hed, h1, h2⟩ := hcorr k e2 hk
      refine ⟨ed, ?_, h1, h2⟩
      simp only [addEdge]
      rw [List.get?_append (hlen ▸ hklt)]
      exact hed
    · have hklen : k < (E2 ++ [(⟨u, v, qs⟩ : UEdge)]).length :=
        (List.get?_eq_some.mp hk).1
      rw [List.length_append, List.length_singleton] at hklen
      have hkeq : k = E2.length := by omega
      subst hkeq
      rw [List.get?_concat_length] at hk
      obtain rfl := Option.some.inj hk
      simp only [addEdge]
      rw [hlen]
      exact ⟨_, List.get?_concat_length _ _, rfl, rfl⟩

theorem plainNeighborTok_adjShape (weighted : Bool) (fromN : String) (st : PState)
    (tok : String) (h : AdjShape st) :
    AdjShape (plainNeighborTok weighted false fromN st tok) := by
  unfold plainNeighborTok
  split_ifs with h1 h2
  · exact h
  · exact addEdge_adjShape _ _ _ _ _ h
  · exact addEdge_adjShape _ _ _ _ _ h

theorem plainLine_adjShape (weighted : Bool) (st : PState) (line : String)
    (h : AdjShape st) : AdjShape (plainLine weighted false st line) := by
  unfold plainLine
  split_ifs with h1
  · apply foldl_pres AdjShape _
      (fun st2 tok => plainNeighborTok_adjShape weighted _ st2 tok)
    exact h
  · simp only []
    split_ifs with h2
    · exact h
    · exact addEdge_adjShape _ _ _ _ _ h

theorem parsePlainMode_adjShape (weighted : Bool) (rawText : String) :
    AdjShape (parsePlainMode weighted false rawText) :=
  foldl_pres AdjShape _ (fun st line => plainLine_adjShape weighted st line) _ _
    adjShape_init

theorem parseArrayClassify_adjShape (weighted : Bool) (rawText : String)
    (parsed : Option Json) (st : PState)
    (h : parseArrayClassify weighted false rawText parsed = .ok st) :
    AdjShape st := by
  unfold parseArrayClassify at h
  revert h
  split
  · intro h
    exact absurd h (by simp)
  · rename_i p0
    split_ifs with htr
    · intro h
      simp only [] at h
      revert h
      split
      · intro h
        exact absurd h (by simp)
      · rename_i p heq
        split
        · rename_i elems
          split_ifs with h1 h2
          · intro h
            rw [← Except.ok.inj h]
            apply foldl_pres AdjShape _ _ _ _ adjShape_init
            intro st' entry hinv
            split
            · exact addEdge_adjShape _ _ _ _ _ hinv
            · exact hinv
          · intro h
            rw [← Except.ok.inj h]
            apply foldl_pres AdjShape _ _ _ _ adjShape_init
            intro st' i hinv
            split
            · apply foldl_pres AdjShape _ _ _ _ hinv
              intro st'' vRaw hinv'
              exact addEdge_adjShape _ _ _ _ _ hinv'
            · exact hinv
          · intro h
            exact absurd h (by simp)
        · intro h
          exact absurd h (by simp)
    · intro h
      exact absurd h (by simp)

theorem parseArrayMode_adjShape (weighted : Bool) (rawText : String)
    (st : PState) (h : parseArrayMode weighted false rawText = .ok st) :
    AdjShape st :=
  parseArrayClassify_adjShape weighted rawText _ st h

/-- Every undirected model the parser returns has an adjacency map
built by `mkAdj` from an edge list that mirrors its edges array
position by position, so `claim_C2_prim_mst` covers every connected
undirected parser model. -/
theorem undirected_model_mkAdj (rawText : String) (options : ParseOptions)
    (m : Model) (hdir : options.directed = false)
    (h : parseGraphInput rawText options = .ok m) :
    ∃ E2 : List UEdge, m.adjacency = mkAdj E2 ∧ E2.length = m.edgesArr.length ∧
      ∀ k e2, E2.get? k = some e2 → ∃ ed, m.edgesArr.get? k = some ed ∧
        ed.fromId = e2.u ∧ ed.toId = e2.v := by
  unfold parseGraphInput at h
  simp only [] at h
  by_cases harr : (if options.inputMode = "" then "plain" else options.inputMode) = "array"
  · rw [if_pos harr] at h
    rcases hpm : parseArrayMode options.weighted options.directed rawText with e | st
    · rw [hpm] at h
      exact absurd h (by simp [Except.map])
    · rw [hpm] at h
      simp only [Except.map] at h
      obtain rfl := (Except.ok.inj h).symm
      rw [hdir] at hpm
      obtain ⟨E2, hadj, _, hlen, hcorr⟩ := parseArrayMode_adjShape _ _ _ hpm
      exact ⟨E2, hadj, hlen, hcorr⟩
  · rw [if_neg harr] at h
    simp only [Except.map] at h
    obtain rfl := (Except.ok.inj h).symm
    rw [hdir]
    obtain ⟨E2, hadj, _, hlen, hcorr⟩ :=
      parsePlainMode_adjShape options.weighted rawText
    exact ⟨E2, hadj, hlen, hcorr⟩

/-! ### Heap facts used by the C7 divergence proof -/

theorem heapSwap_length (d : List HeapItem) (a b : ℕ) :
    (heapSwap d a b).length = d.length := by
  simp [heapSwap]

theorem heapGetD_mem {d : List HeapItem} {i : ℕ} (h : i < d.length) :
    heapGetD d i ∈ d := by
  rw [heapGetD, List.getD_eq_get _ _ h]
  exact List.get_mem d i h

theorem get?_eq_some_heapGetD {d : List HeapItem} {i : ℕ} (h : i < d.length) :
    d.get? i = some (heapGetD d i) := by
  rw [List.get?_eq_get h, heapGetD, List.getD_eq_get _ _ h]

theorem mem_heapSwap {d : List HeapItem} {a b : ℕ} (ha : a < d.length)
    (hb : b < d.length) {x : HeapItem} (h : x ∈ heapSwap d a b) : x ∈ d := by
  rw [heapSwap] at h
  rcases List.mem_or_eq_of_mem_set h with h2 | h2
  · rcases List.mem_or_eq_of_mem_set h2 with h3 | h3
    · exact h3
    · rw [h3]; exact heapGetD_mem hb
  · rw [h2]; exact heapGetD_mem ha

theorem heapGetD_set_self {d : List HeapItem} {i : ℕ} (h : i < d.length)
    (x : HeapItem) : heapGetD (d.set i x) i = x := by
  rw [heapGetD, List.getD_eq_get _ _ (by rw [List.length_set]; exact h)]
  exact List.get_set_eq _

theorem heapGetD_set_other {d : List HeapItem} {i j : ℕ} (h : i ≠ j)
    (x : HeapItem) : heapGetD (d.set i x) j = heapGetD d j := by
  by_cases hj : j < d.length
  · rw [heapGetD, List.getD_eq_get _ _ (by rw [List.length_set]; exact hj),
      List.get_set_ne h, heapGetD, List.getD_eq_get _ _ hj]
  · rw [heapGetD, heapGetD]
    have h1 : d.get? j = none := List.get?_eq_none.mpr (by omega)
    have h2 : (d.set i x).get? j = none :=
      List.get?_eq_none.mpr (by rw [List.length_set]; omega)
    rw [List.getD, List.getD, h1, h2]

theorem heapGetD_heapSwap_left {d : List HeapItem} {a b : ℕ} (ha : a < d.length)
    (hab : a ≠ b) :
    heapGetD (heapSwap d a b) a = heapGetD d b := by
  rw [heapSwap, heapGetD_set_other (fun hc => hab hc.symm),
    heapGetD_set_self ha]

theorem heapGetD_heapSwap_right {d : List HeapItem} {a b : ℕ}
    (hb : b < d.length) : heapGetD (heapSwap d a b) b = heapGetD d a := by
  rw [heapSwap, heapGetD_set_self (by rw [List.length_set]; exact hb)]

theorem heapGetD_heapSwap_other {d : List HeapItem} {a b k : ℕ} (hka : k ≠ a)
    (hkb : k ≠ b) : heapGetD (heapSwap d a b) k = heapGetD d k := by
  rw [heapSwap, heapGetD_set_other (fun hc => hkb hc.symm),
    heapGetD_set_other (fun hc => hka hc.symm)]

theorem length_siftDownFuel : ∀ (f : ℕ) (d : List HeapItem) (i : ℕ),
    (siftDownFuel f d i).length = d.length := by
  intro f
  induction f with
  | zero => intro d i; rfl
  | succ f ih =>
      intro d i
      rw [siftDownFuel]
      split_ifs <;> first | rfl | rw [ih, heapSwap_length]

theorem mem_siftDownFuel : ∀ (f : ℕ) (d : List HeapItem) (i : ℕ) {x : HeapItem},
    x ∈ siftDownFuel f d i → x ∈ d := by
  intro f
  induction f with
  | zero => intro d i x h; exact h
  | succ f ih =>
      intro d i x h
      rw [siftDownFuel] at h
      split_ifs at h with h1 h2 h3
      · exact mem_heapSwap (by omega) h2.1 (ih _ _ h)
      · exact mem_heapSwap (by omega) h1.1 (ih _ _ h)
      · exact mem_heapSwap (by omega) h3.1 (ih _ _ h)
      · exact h

/-- Sifting up an entry strictly smaller than every other entry moves
it to the root and keeps the others. -/
theorem siftUpFuel_min : ∀ (i f : ℕ) (d : List HeapItem) (q : ℚ),
    i < d.length → i ≤ f → (heapGetD d i).priority = .fin q →
    (∀ j, j < d.length → j ≠ i → ∃ qx : ℚ, (heapGetD d j).priority = .fin qx ∧ q < qx) →
    ∃ rest, siftUpFuel f d i = heapGetD d i :: rest ∧
      rest.length + 1 = d.length ∧
      ∀ x ∈ rest, ∃ j, j < d.length ∧ j ≠ i ∧ x = heapGetD d j := by
  intro i
  induction i using Nat.strong_induction_on with
  | _ i IH =>
    intro f d q hi hf hq hall
    cases i with
    | zero =>
        have hstep : siftUpFuel f d 0 = d := by cases f <;> rfl
        rw [hstep]
        match d, hi with
        | x :: tl, _ =>
            refine ⟨tl, rfl, rfl, ?_⟩
            intro y hy
            obtain ⟨⟨k, hk⟩, hky⟩ := List.mem_iff_get.mp hy
            refine ⟨k + 1, by simpa using Nat.succ_lt_succ hk, by omega, ?_⟩
            rw [show heapGetD (x :: tl) (k + 1) = tl.get ⟨k, hk⟩ from by
              rw [heapGetD, List.getD_cons_succ, List.getD_eq_get _ _ hk]]
            exact hky.symm
    | succ j =>
        cases f with
        | zero => exact absurd hf (by omega)
        | succ f2 =>
            have hp2 : j / 2 < j + 1 := by omega
            have hpi : j / 2 ≠ j + 1 := by omega
            have hplt : j / 2 < d.length := lt_trans hp2 hi
            obtain ⟨qp, hqp, hlt⟩ := hall (j / 2) hplt hpi
            have hcond :
                ((heapGetD d (j / 2)).priority.le (heapGetD d (j + 1)).priority) = false := by
              rw [hqp, hq]
              simp only [JsNum.le, decide_eq_false_iff_not]
              exact not_le.mpr hlt
            have hstep : siftUpFuel (f2 + 1) d (j + 1) =
                siftUpFuel f2 (heapSwap d (j + 1) (j / 2)) (j / 2) := by
              rw [siftUpFuel]
              simp only [hcond, Bool.false_eq_true, if_false]
            have hlen2 : (heapSwap d (j + 1) (j / 2)).length = d.length :=
              heapSwap_length d _ _
            have hgp : heapGetD (heapSwap d (j + 1) (j / 2)) (j / 2) = heapGetD d (j + 1) :=
              heapGetD_heapSwap_right hplt
            have hall2 : ∀ k, k < (heapSwap d (j + 1) (j / 2)).length → k ≠ j / 2 →
                ∃ qx : ℚ,
                  (heapGetD (heapSwap d (j + 1) (j / 2)) k).priority = .fin qx ∧ q < qx := by
              intro k hk hkp
              rw [hlen2] at hk
              by_cases hkj : k = j + 1
              · subst hkj
                rw [heapGetD_heapSwap_left hi (fun hc => hpi hc.symm)]
                exact ⟨qp, hqp, hlt⟩
              · rw [heapGetD_heapSwap_other hkj hkp]
                exact hall k hk hkj
            obtain ⟨rest, hr1, hr2, hr3⟩ := IH (j / 2) hp2 f2 (heapSwap d (j + 1) (j / 2)) q
              (by rw [hlen2]; exact hplt) (by omega) (by rw [hgp]; exact hq) hall2
            refine ⟨rest, ?_, ?_, ?_⟩
            · rw [hstep, hr1, hgp]
            · rw [hr2, hlen2]
            · intro x hx
              obtain ⟨k, hk, hkp, hkeq⟩ := hr3 x hx
              rw [hlen2] at hk
              by_cases hkj : k = j + 1
              · subst hkj
                rw [heapGetD_heapSwap_left hi (fun hc => hpi hc.symm)] at hkeq
                exact ⟨j / 2, hplt, hpi, hkeq⟩
              · rw [heapGetD_heapSwap_other hkj hkp] at hkeq
                exact ⟨k, hk, hkj, hkeq⟩

/-- Pushing an entry strictly smaller than everything queued places it
at the root and keeps the rest. -/
theorem push_min (d : List HeapItem) (it : HeapItem) (q : ℚ)
    (hq : it.priority = .fin q)
    (hall : ∀ x ∈ d, ∃ qx : ℚ, x.priority = .fin qx ∧ q < qx) :
    ∃ rest, (MinHeap.push ⟨d⟩ it).data = it :: rest ∧ rest.length = d.length ∧
      ∀ x ∈ rest, x ∈ d := by
  have hi : d.length < (d ++ [it]).length := by simp
  have hgetI : heapGetD (d ++ [it]) d.length = it := by
    rw [heapGetD, List.getD_eq_get?, List.get?_concat_length]
    rfl
  have hall2 : ∀ j, j < (d ++ [it]).length → j ≠ d.length →
      ∃ qx : ℚ, (heapGetD (d ++ [it]) j).priority = .fin qx ∧ q < qx := by
    intro j hj hjne
    have hjd : j < d.length := by
      rw [List.length_append, List.length_singleton] at hj
      omega
    rw [heapGetD, List.getD_append _ _ _ _ hjd]
    exact hall _ (heapGetD_mem hjd)
  obtain ⟨rest, h1, h2, h3⟩ := siftUpFuel_min d.length d.length (d ++ [it]) q hi
    (le_refl _) (by rw [hgetI]; exact hq) hall2
  refine ⟨rest, ?_, ?_, ?_⟩
  · show siftUp (d ++ [it]) ((d ++ [it]).length - 1) = it :: rest
    rw [List.length_append, List.length_singleton, Nat.add_sub_cancel, siftUp, h1, hgetI]
  · rw [List.length_append, List.length_singleton] at h2
    omega
  · intro x hx
    obtain ⟨k, hk, hkne, hkeq⟩ := h3 x hx
    have hkd : k < d.length := by
      rw [List.length_append, List.length_singleton] at hk
      omega
    rw [hkeq, heapGetD, List.getD_append _ _ _ _ hkd]
    exact heapGetD_mem hkd

/-- Popping a heap whose root is tracked explicitly: the root comes
out and what remains was already queued behind it. -/
theorem pop_cons (it : HeapItem) (rest : List HeapItem) (hne : rest ≠ []) :
    ∃ d2, MinHeap.pop ⟨it :: rest⟩ = (some it, ⟨d2⟩) ∧ d2.length = rest.length ∧
      ∀ x ∈ d2, x ∈ rest := by
  have hlpos : 0 < rest.length := List.length_pos.mpr hne
  have h0lt : 0 < (it :: rest).length := by simp
  have hblt : rest.length < (it :: rest).length := by simp
  have hne0 : (0 : ℕ) ≠ rest.length := by omega
  have hswaplen : (heapSwap (it :: rest) 0 rest.length).length = rest.length + 1 := by
    rw [heapSwap_length]
    rfl
  have hlast : (heapSwap (it :: rest) 0 rest.length).getLast? = some it := by
    rw [List.getLast?_eq_get?, hswaplen, Nat.add_sub_cancel,
      get?_eq_some_heapGetD (by rw [hswaplen]; omega),
      heapGetD_heapSwap_right hblt]
    rw [heapGetD, List.getD_cons_zero]
  have hmemdrop : ∀ x ∈ (heapSwap (it :: rest) 0 rest.length).dropLast, x ∈ rest := by
    intro x hx
    obtain ⟨⟨k, hk⟩, hky⟩ := List.mem_iff_get.mp hx
    rw [List.get_dropLast] at hky
    have hk2 : k < rest.length := by
      rw [List.length_dropLast, hswaplen, Nat.add_sub_cancel] at hk
      exact hk
    have hky2 : heapGetD (heapSwap (it :: rest) 0 rest.length) k = x := by
      rw [heapGetD, List.getD_eq_get _ _ (by rw [hswaplen]; omega)]
      exact hky
    by_cases hk0 : k = 0
    · subst hk0
      rw [heapGetD_heapSwap_left h0lt hne0] at hky2
      rw [← hky2]
      obtain ⟨m, hm⟩ : ∃ m, rest.length = m + 1 := ⟨rest.length - 1, by omega⟩
      rw [show heapGetD (it :: rest) rest.length = heapGetD rest m from by
        rw [hm, heapGetD, heapGetD, List.getD_cons_succ]]
      exact heapGetD_mem (by omega)
    · have hkr : k ≠ rest.length := by omega
      rw [heapGetD_heapSwap_other hk0 hkr] at hky2
      rw [← hky2]
      obtain ⟨m, hm⟩ : ∃ m, k = m + 1 := ⟨k - 1, by omega⟩
      rw [hm, heapGetD, List.getD_cons_succ]
      exact heapGetD_mem (by omega)
  refine ⟨siftDown (heapSwap (it :: rest) 0 rest.length).dropLast 0, ?_, ?_, ?_⟩
  · rw [MinHeap.pop]
    rw [if_neg (by simp)]
    simp only [List.length_cons, Nat.add_sub_cancel]
    rw [hlast]
  · rw [siftDown, length_siftDownFuel, List.length_dropLast, hswaplen,
      Nat.add_sub_cancel]
  · intro x hx
    rw [siftDown] at hx
    exact hmemdrop x (mem_siftDownFuel _ _ _ hx)

/-- One non-stale, non-target iteration of the Dijkstra loop: pop the
item and relax its neighbors. -/
theorem dijkstraLoop_step (adjacency : List (String × List AdjEntry)) (target : String)
    (fuel : ℕ) (st : DState) (it : HeapItem) (pq2 : MinHeap)
    (hne : st.pq.data ≠ [])
    (hpop : st.pq.pop = (some it, pq2))
    (hstale : (match assocGet st.dist it.node with
               | some du => du.lt it.priority
               | none => false) = false)
    (htgt : ¬ it.node = target) :
    dijkstraLoop adjacency target (fuel + 1) st =
      dijkstraLoop adjacency target fuel
        (((assocGet adjacency it.node).getD []).foldl (dijkstraRelax it.node)
          { st with pq := pq2 }) := by
  rw [dijkstraLoop]
  rw [if_neg (by simp [MinHeap.isEmpty, List.length_eq_zero, hne])]
  rw [hpop]
  simp only []
  rw [if_neg (by rw [hstale]; simp)]
  rw [if_neg htgt]

theorem assocGet_ABC_A (x1 x2 x3 : JsNum) :
    assocGet [("A", x1), ("B", x2), ("C", x3)] "A" = some x1 := by
  with_unfolding_all rfl

theorem assocGet_ABC_B (x1 x2 x3 : JsNum) :
    assocGet [("A", x1), ("B", x2), ("C", x3)] "B" = some x2 := by
  with_unfolding_all rfl

theorem assocGet_ABC_C (x1 x2 x3 : JsNum) :
    assocGet [("A", x1), ("B", x2), ("C", x3)] "C" = some x3 := by
  with_unfolding_all rfl

theorem assocSetV_ABC_A (x1 x2 x3 v : JsNum) :
    assocSetV [("A", x1), ("B", x2), ("C", x3)] "A" v =
      [("A", v), ("B", x2), ("C", x3)] := by
  with_unfolding_all rfl

theorem assocSetV_ABC_B (x1 x2 x3 v : JsNum) :
    assocSetV [("A", x1), ("B", x2), ("C", x3)] "B" v =
      [("A", x1), ("B", v), ("C", x3)] := by
  with_unfolding_all rfl

theorem assocSetV_ABC_C (x1 x2 x3 v : JsNum) :
    assocSetV [("A", x1), ("B", x2), ("C", x3)] "C" v =
      [("A", x1), ("B", x2), ("C", v)] := by
  with_unfolding_all rfl

theorem advAdj_at_B :
    (assocGet advAdj "B").getD [] =
      [⟨"A", .fin 1, 0⟩, (⟨"C", .fin (-5), 1⟩ : AdjEntry)] := by
  with_unfolding_all rfl

theorem advAdj_at_C :
    (assocGet advAdj "C").getD [] = [(⟨"B", .fin (-5), 1⟩ : AdjEntry)] := by
  with_unfolding_all rfl

/-- From an even pump state, one loop iteration (popping the live `C`)
leads to the matching odd pump state. -/
theorem divInv_even_step {a : ℕ} {st : DState} (h : DivInv a st) (fuel : ℕ) :
    ∃ st2, dijkstraLoop advAdj "A" (fuel + 1) st = dijkstraLoop advAdj "A" fuel st2 ∧
      OddInv a st2 := by
  obtain ⟨hdist, rest, hdata, hne, hrest⟩ := h
  obtain ⟨d2, hpop, hlen2, hmem2⟩ :=
    pop_cons ⟨"C", .fin (-10 - 10 * (a : ℚ))⟩ rest hne
  have hq : st.pq = ⟨(⟨"C", .fin (-10 - 10 * (a : ℚ))⟩ : HeapItem) :: rest⟩ := by
    have h2 : st.pq = ⟨st.pq.data⟩ := rfl
    rw [h2, hdata]
  have hpop2 : st.pq.pop = (some ⟨"C", .fin (-10 - 10 * (a : ℚ))⟩, ⟨d2⟩) := by
    rw [hq]; exact hpop
  have hstale :
      (match assocGet st.dist
          (⟨"C", .fin (-10 - 10 * (a : ℚ))⟩ : HeapItem).node with
        | some du => du.lt (⟨"C", .fin (-10 - 10 * (a : ℚ))⟩ : HeapItem).priority
        | none => false) = false := by
    show (match assocGet st.dist "C" with
      | some du => du.lt (JsNum.fin (-10 - 10 * (a : ℚ)))
      | none => false) = false
    rw [hdist, assocGet_ABC_C]
    simp only [JsNum.lt, decide_eq_false_iff_not]
    exact lt_irrefl _
  have hstep := dijkstraLoop_step advAdj "A" fuel st
    ⟨"C", .fin (-10 - 10 * (a : ℚ))⟩ ⟨d2⟩
    (by rw [hdata]; simp) hpop2 hstale (by simp)
  rw [show (⟨"C", .fin (-10 - 10 * (a : ℚ))⟩ : HeapItem).node = "C" from rfl,
    advAdj_at_C] at hstep
  have hrelax : dijkstraRelax "C" { st with pq := (⟨d2⟩ : MinHeap) }
      ⟨"B", .fin (-5), 1⟩ =
      { dist := [("A", .fin (-4 - 10 * (a : ℚ))), ("B", .fin (-15 - 10 * (a : ℚ))),
          ("C", .fin (-10 - 10 * (a : ℚ)))],
        prev := assocSetV st.prev "B" (some "C"),
        pq := MinHeap.push ⟨d2⟩ ⟨"B", .fin (-15 - 10 * (a : ℚ))⟩ } := by
    rw [dijkstraRelax]
    simp only []
    rw [hdist, assocGet_ABC_C, assocGet_ABC_B]
    simp only [Option.getD_some, jsAdd_fin]
    rw [show (-10 - 10 * (a : ℚ) + -5) = (-15 - 10 * (a : ℚ)) from by ring]
    rw [show (JsNum.fin (-15 - 10 * (a : ℚ))).lt (.fin (-5 - 10 * (a : ℚ))) = true from by
      simp only [JsNum.lt, decide_eq_true_eq]
      linarith]
    rw [if_pos rfl, assocSetV_ABC_B]
  have hpushall : ∀ x ∈ d2, ∃ qx : ℚ, x.priority = .fin qx ∧
      -15 - 10 * (a : ℚ) < qx := by
    intro x hx
    obtain ⟨_, qx, hqx, hge⟩ := hrest x (hmem2 x hx)
    exact ⟨qx, hqx, by linarith⟩
  obtain ⟨rest2, hp1, hp2, hp3⟩ := push_min d2 ⟨"B", .fin (-15 - 10 * (a : ℚ))⟩
    (-15 - 10 * (a : ℚ)) rfl hpushall
  refine ⟨_, by rw [hstep, List.foldl_cons, List.foldl_nil, hrelax], rfl, rest2, hp1,
    ?_, ?_⟩
  · intro hc
    rw [hc] at hp2
    have h3 := List.length_pos.mpr hne
    rw [← hlen2] at h3
    simp at hp2
    omega
  · intro x hx
    exact hrest x (hmem2 x (hp3 x hx))

/-- From an odd pump state, one loop iteration (popping the live `B`)
completes the pump round and reaches the next even pump state. -/
theorem divInv_odd_step {a : ℕ} {st : DState} (h : OddInv a st) (fuel : ℕ) :
    ∃ st2, dijkstraLoop advAdj "A" (fuel + 1) st = dijkstraLoop advAdj "A" fuel st2 ∧
      DivInv (a + 1) st2 := by
  obtain ⟨hdist, rest, hdata, hne, hrest⟩ := h
  obtain ⟨d2, hpop, hlen2, hmem2⟩ :=
    pop_cons ⟨"B", .fin (-15 - 10 * (a : ℚ))⟩ rest hne
  have hq : st.pq = ⟨(⟨"B", .fin (-15 - 10 * (a : ℚ))⟩ : HeapItem) :: rest⟩ := by
    have h2 : st.pq = ⟨st.pq.data⟩ := rfl
    rw [h2, hdata]
  have hpop2 : st.pq.pop = (some ⟨"B", .fin (-15 - 10 * (a : ℚ))⟩, ⟨d2⟩) := by
    rw [hq]; exact hpop
  have hstale :
      (match assocGet st.dist
          (⟨"B", .fin (-15 - 10 * (a : ℚ))⟩ : HeapItem).node with
        | some du => du.lt (⟨"B", .fin (-15 - 10 * (a : ℚ))⟩ : HeapItem).priority
        | none => false) = false := by
    show (match assocGet st.dist "B" with
      | some du => du.lt (JsNum.fin (-15 - 10 * (a : ℚ)))
      | none => false) = false
    rw [hdist, assocGet_ABC_B]
    simp only [JsNum.lt, decide_eq_false_iff_not]
    exact lt_irrefl _
  have hstep := dijkstraLoop_step advAdj "A" fuel st
    ⟨"B", .fin (-15 - 10 * (a : ℚ))⟩ ⟨d2⟩
    (by rw [hdata]; simp) hpop2 hstale (by simp)
  rw [show (⟨"B", .fin (-15 - 10 * (a : ℚ))⟩ : HeapItem).node = "B" from rfl,
    advAdj_at_B] at hstep
  -- first relaxation: the edge B - A improves A
  have hrelax1 : dijkstraRelax "B" { st with pq := (⟨d2⟩ : MinHeap) }
      ⟨"A", .fin 1, 0⟩ =
      { dist := [("A", .fin (-4 - 10 * ((a + 1 : ℕ) : ℚ))),
          ("B", .fin (-15 - 10 * (a : ℚ))), ("C", .fin (-10 - 10 * (a : ℚ)))],
        prev := assocSetV st.prev "A" (some "B"),
        pq := MinHeap.push ⟨d2⟩ ⟨"A", .fin (-4 - 10 * ((a + 1 : ℕ) : ℚ))⟩ } := by
    rw [dijkstraRelax]
    simp only []
    rw [hdist, assocGet_ABC_B, assocGet_ABC_A]
    simp only [Option.getD_some, jsAdd_fin]
    rw [show (-15 - 10 * (a : ℚ) + 1) = (-4 - 10 * ((a + 1 : ℕ) : ℚ)) from by
      push_cast; ring]
    rw [show (JsNum.fin (-4 - 10 * ((a + 1 : ℕ) : ℚ))).lt
        (.fin (-4 - 10 * (a : ℚ))) = true from by
      simp only [JsNum.lt, decide_eq_true_eq]
      push_cast
      linarith]
    rw [if_pos rfl, assocSetV_ABC_A]
  -- second relaxation: the negative edge B - C improves C again
  have hrelax2 : dijkstraRelax "B"
      { dist := [("A", .fin (-4 - 10 * ((a + 1 : ℕ) : ℚ))),
          ("B", .fin (-15 - 10 * (a : ℚ))), ("C", .fin (-10 - 10 * (a : ℚ)))],
        prev := assocSetV st.prev "A" (some "B"),
        pq := MinHeap.push ⟨d2⟩ ⟨"A", .fin (-4 - 10 * ((a + 1 : ℕ) : ℚ))⟩ }
      ⟨"C", .fin (-5), 1⟩ =
      { dist := [("A", .fin (-4 - 10 * ((a + 1 : ℕ) : ℚ))),
          ("B", .fin (-15 - 10 * (a : ℚ))),
          ("C", .fin (-10 - 10 * ((a + 1 : ℕ) : ℚ)))],
        prev := assocSetV (assocSetV st.prev "A" (some "B")) "C" (some "B"),
        pq := (MinHeap.push ⟨d2⟩ ⟨"A", .fin (-4 - 10 * ((a + 1 : ℕ) : ℚ))⟩).push
          ⟨"C", .fin (-10 - 10 * ((a + 1 : ℕ) : ℚ))⟩ } := by
    rw [dijkstraRelax]
    simp only []
    rw [assocGet_ABC_B, assocGet_ABC_C]
    simp only [Option.getD_some, jsAdd_fin]
    rw [show (-15 - 10 * (a : ℚ) + -5) = (-10 - 10 * ((a + 1 : ℕ) : ℚ)) from by
      push_cast; ring]
    rw [show (JsNum.fin (-10 - 10 * ((a + 1 : ℕ) : ℚ))).lt
        (.fin (-10 - 10 * (a : ℚ))) = true from by
      simp only [JsNum.lt, decide_eq_true_eq]
      push_cast
      linarith]
    rw [if_pos rfl, assocSetV_ABC_C]
  -- the two pushes keep their items at the root
  have hpushall1 : ∀ x ∈ d2, ∃ qx : ℚ, x.priority = .fin qx ∧
      -4 - 10 * ((a + 1 : ℕ) : ℚ) < qx := by
    intro x hx
    obtain ⟨_, qx, hqx, hge⟩ := hrest x (hmem2 x hx)
    refine ⟨qx, hqx, ?_⟩
    push_cast
    linarith
  obtain ⟨rest3, hp1, hp2, hp3⟩ := push_min d2
    ⟨"A", .fin (-4 - 10 * ((a + 1 : ℕ) : ℚ))⟩ (-4 - 10 * ((a + 1 : ℕ) : ℚ)) rfl
    hpushall1
  have hq2 : MinHeap.push ⟨d2⟩ ⟨"A", .fin (-4 - 10 * ((a + 1 : ℕ) : ℚ))⟩ =
      ⟨⟨"A", .fin (-4 - 10 * ((a + 1 : ℕ) : ℚ))⟩ :: rest3⟩ := by
    have h2 : MinHeap.push ⟨d2⟩ ⟨"A", .fin (-4 - 10 * ((a + 1 : ℕ) : ℚ))⟩ =
        ⟨(MinHeap.push ⟨d2⟩ ⟨"A", .fin (-4 - 10 * ((a + 1 : ℕ) : ℚ))⟩).data⟩ := rfl
    rw [h2, hp1]
  have hpushall2 : ∀ x ∈ (⟨"A", .fin (-4 - 10 * ((a + 1 : ℕ) : ℚ))⟩ : HeapItem) :: rest3,
      ∃ qx : ℚ, x.priority = .fin qx ∧ -10 - 10 * ((a + 1 : ℕ) : ℚ) < qx := by
    intro x hx
    rcases List.mem_cons.mp hx with rfl | hx
    · exact ⟨-4 - 10 * ((a + 1 : ℕ) : ℚ), rfl, by linarith⟩
    · obtain ⟨_, qx, hqx, hge⟩ := hrest x (hmem2 x (hp3 x hx))
      refine ⟨qx, hqx, ?_⟩
      push_cast at hge ⊢
      linarith
  obtain ⟨rest4, hp4, hp5, hp6⟩ := push_min
    (⟨"A", .fin (-4 - 10 * ((a + 1 : ℕ) : ℚ))⟩ :: rest3)
    ⟨"C", .fin (-10 - 10 * ((a + 1 : ℕ) : ℚ))⟩ (-10 - 10 * ((a + 1 : ℕ) : ℚ)) rfl
    hpushall2
  refine ⟨_, by rw [hstep, List.foldl_cons, hrelax1, List.foldl_cons, List.foldl_nil,
      hrelax2], ?_, rest4, ?_, ?_, ?_⟩
  · -- the distance table of the next even state
    show _ = [("A", JsNum.fin (-4 - 10 * ((a + 1 : ℕ) : ℚ))),
      ("B", .fin (-5 - 10 * ((a + 1 : ℕ) : ℚ))), ("C", .fin (-10 - 10 * ((a + 1 : ℕ) : ℚ)))]
    rw [show (-5 - 10 * ((a + 1 : ℕ) : ℚ)) = (-15 - 10 * (a : ℚ)) from by
      push_cast; ring]
  · -- its queue layout
    show ((MinHeap.push ⟨d2⟩ _).push _).data = _
    rw [hq2]
    exact hp4
  · -- the stale pile is nonempty
    intro hc
    rw [hc] at hp5
    simp at hp5
  · intro x hx
    rcases List.mem_cons.mp (hp6 x hx) with rfl | hx2
    · exact ⟨rfl, -4 - 10 * ((a + 1 : ℕ) : ℚ), rfl, le_refl _⟩
    · obtain ⟨hxn, qx, hqx, hge⟩ := hrest x (hmem2 x (hp3 x hx2))
      refine ⟨hxn, qx, hqx, ?_⟩
      push_cast at hge ⊢
      linarith

/-- From any pump state the loop never returns, whatever the fuel:
the modelled JS `while` loop runs forever. -/
theorem divLoop_none : ∀ (fuel a : ℕ) (st : DState), DivInv a st →
    dijkstraLoop advAdj "A" fuel st = none := by
  intro fuel
  induction fuel using Nat.strong_induction_on with
  | _ fuel IH =>
    intro a st h
    match fuel with
    | 0 => rfl
    | fuel + 1 =>
        obtain ⟨st2, heq, hodd⟩ := divInv_even_step h fuel
        rw [heq]
        match fuel with
        | 0 => rfl
        | f2 + 1 =>
            obtain ⟨st3, heq2, hdiv⟩ := divInv_odd_step hodd f2
            rw [heq2]
            exact IH f2 (by omega) (a + 1) st3 hdiv

/-- The first two iterations of the `C` to `A` run reach the first
pump state. -/
theorem divRamp (fuel : ℕ) :
    dijkstraLoop advAdj "A" (fuel + 2)
      ⟨[("A", JsNum.pinf), ("B", JsNum.pinf), ("C", .fin 0)],
       [("A", none), ("B", none), ("C", none)],
       ⟨[⟨"C", .fin 0⟩]⟩⟩ =
    dijkstraLoop advAdj "A" fuel divStart := by
  with_unfolding_all rfl

theorem divStart_inv : DivInv 0 divStart := by
  constructor
  · show [("A", JsNum.fin (-4)), ("B", .fin (-5)), ("C", .fin (-10))] = _
    norm_num
  · refine ⟨[⟨"A", .fin (-4)⟩], ?_, by simp, ?_⟩
    · show [(⟨"C", JsNum.fin (-10)⟩ : HeapItem), ⟨"A", .fin (-4)⟩] = _
      norm_num
    · intro x hx
      rw [List.mem_singleton] at hx
      subst hx
      exact ⟨rfl, -4, by norm_num, by norm_num⟩

/-- C7 fails: on the parser model of `"A B 1\nB C -5"` (weighted,
undirected; an undirected negative edge `B - C`), the nodes `A` and
`C` are joined by the path `A, B, C`, the engine run from `A` to `C`
returns distance `-4`, but the run from `C` to `A` never returns for
any fuel: the JS loop pumps the tentative distances down the negative
two-cycle between `B` and `C` forever and the target `A` is never
popped, so no distance is returned at all, let alone an equal one. -/
theorem claim_C7_negative_weight_asymmetry :
    (parseGraphInput "A B 1\nB C -5" ⟨true, false, "plain"⟩).map (fun m =>
      (m.adjacency, m.edgeKeyToId, m.isDirected, m.nodesArr.map Node.id)) =
      .ok (advAdj, advEk, false, ["A", "B", "C"]) ∧
    dijkstraPQ (some advAdj) advEk false "A" "C" ["A", "B", "C"] 50 =
      some ⟨.fin (-4), ["A", "B", "C"], [0, 1]⟩ ∧
    ∀ fuel, dijkstraPQ (some advAdj) advEk false "C" "A" ["A", "B", "C"] fuel = none := by
  refine ⟨by with_unfolding_all rfl, by with_unfolding_all rfl, ?_⟩
  intro fuel
  match fuel with
  | 0 => with_unfolding_all rfl
  | 1 => with_unfolding_all rfl
  | f + 2 =>
      have h2 : dijkstraLoop advAdj "A" (f + 2)
          ⟨[("A", JsNum.pinf), ("B", JsNum.pinf), ("C", .fin 0)],
           [("A", none), ("B", none), ("C", none)],
           ⟨[⟨"C", .fin 0⟩]⟩⟩ = none := by
        rw [divRamp]
        exact divLoop_none f 0 divStart divStart_inv
      calc dijkstraPQ (some advAdj) advEk false "C" "A" ["A", "B", "C"] (f + 2)
          = (match dijkstraLoop advAdj "A" (f + 2)
              ⟨[("A", JsNum.pinf), ("B", JsNum.pinf), ("C", .fin 0)],
               [("A", none), ("B", none), ("C", none)],
               ⟨[⟨"C", .fin 0⟩]⟩⟩ with
            | none => none
            | some st => dijkstraFinish advEk false "A" (f + 2) st) := by
              with_unfolding_all rfl
        _ = none := by rw [h2]

end GraphViz
